import Mathlib

/-!
Shallow embedding of `src/binder.h` (namespace `cxx`, class template
`binder<K, V>`): a copy-on-write ordered associative container.

Model overview:
* `binder_data` (the storage engine) keeps a `std::list<std::pair<K,V>>`
  `content` plus a `std::map<K, iterator>` `address` whose entries exactly
  mirror `content`; since the map is determined by the list, an instance is
  modelled by its content list alone, and map lookups become list lookups
  on the (unique) key.
* A `binder` handle holds `data_ptr : shared_ptr<binder_data>` (null means
  empty) and a `read_called : bool` flag.  Sharing is modelled by a `World`:
  a heap of instance contents addressed by `Nat` ids (ids are never reused;
  an instance whose last reference is dropped simply becomes garbage, which
  is observationally equivalent to freeing it) together with the list of all
  live handles.  `use_count` of an id is the number of handles whose pointer
  is that id, exactly as `shared_ptr::use_count()` counts the handle-held
  owners at the moment `binder` reads it (no iterator or temporary holds a
  `shared_ptr` at that point).
* Mutable references returned by `V& read(K const&)` are modelled as a pair
  (instance id, key); a write through the reference updates that instance's
  value for the key in place.
-/

set_option linter.unusedSectionVars false

namespace CxxBinder

/-- The three error kinds thrown by `binder` / `binder_data` (all are
`std::invalid_argument`, distinguished by message). -/
inductive BErr where
  | EmptyContainer
  | DuplicateKey
  | KeyNotFound
deriving DecidableEq, Repr

deriving instance DecidableEq for Except

variable {K V : Type} [DecidableEq K]

/-- `address.contains(k)`: whether some entry of the content list has key `k`. -/
def containsKey (k : K) (l : List (K × V)) : Bool :=
  l.any (fun e => e.1 = k)

/-- The keys of a content list, in iteration order. -/
def keysOf (l : List (K × V)) : List K := l.map Prod.fst

/-- `binder_data::insert_front` (src/binder.h:169-180): throw `DuplicateKey`
if the key is indexed, otherwise prepend the entry (the index update cannot
fail in the model, so the rollback path is not taken). -/
def dInsertFront (k : K) (v : V) (l : List (K × V)) : Except BErr (List (K × V)) :=
  if containsKey k l then .error .DuplicateKey
  else .ok ((k, v) :: l)

/-- The list insertion performed by `binder_data::insert_after` on success:
insert `(k, v)` immediately after the (unique) node whose key is `pk`. -/
def insertAfterList (pk k : K) (v : V) : List (K × V) → List (K × V)
  | [] => []
  | e :: t => if e.1 = pk then e :: (k, v) :: t else e :: insertAfterList pk k v t

/-- `binder_data::insert_after` (src/binder.h:182-198): `DuplicateKey` if `k`
is present (checked first), then `KeyNotFound` if `prev_k` is absent,
otherwise splice the new entry right after the anchor's node. -/
def dInsertAfter (pk k : K) (v : V) (l : List (K × V)) : Except BErr (List (K × V)) :=
  if containsKey k l then .error .DuplicateKey
  else if containsKey pk l then .ok (insertAfterList pk k v l)
  else .error .KeyNotFound

/-- `binder_data::remove()` (src/binder.h:200-205): `EmptyContainer` if the
index (equivalently the sequence) is empty, else drop the first entry. -/
def dRemoveFront (l : List (K × V)) : Except BErr (List (K × V)) :=
  match l with
  | [] => .error .EmptyContainer
  | _ :: t => .ok t

/-- Erase the (unique) node with key `k` from the content list. -/
def removeKeyList (k : K) : List (K × V) → List (K × V)
  | [] => []
  | e :: t => if e.1 = k then t else e :: removeKeyList k t

/-- `binder_data::remove(K const&)` (src/binder.h:207-213): `KeyNotFound` if
`k` is not indexed, else erase its node and its index entry. -/
def dRemoveKey (k : K) (l : List (K × V)) : Except BErr (List (K × V)) :=
  if containsKey k l then .ok (removeKeyList k l) else .error .KeyNotFound

/-- Value stored for the (unique) key `k`, if present. -/
def lookupVal (k : K) : List (K × V) → Option V
  | [] => none
  | e :: t => if e.1 = k then some e.2 else lookupVal k t

/-- `binder_data::read` / `binder_data::read_const` (src/binder.h:215-227):
`KeyNotFound` if `k` is not indexed, else the value stored under `k`. -/
def dRead (k : K) (l : List (K × V)) : Except BErr V :=
  match lookupVal k l with
  | some v => .ok v
  | none => .error .KeyNotFound

/-- A write through the `V&` returned by mutable `read`: replace the value
of the (unique) node with key `k`, leaving everything else in place. -/
def setValList (k : K) (v : V) : List (K × V) → List (K × V)
  | [] => []
  | e :: t => if e.1 = k then (e.1, v) :: t else e :: setValList k v t

/-- The per-handle state of a `binder`: `ptr` is the `data_ptr` (the id of
the heap instance, `none` for null) and `read_called` the COW flag. -/
structure Handle where
  ptr : Option Nat
  read_called : Bool
deriving DecidableEq, Repr

/-- A world: the heap of `binder_data` instances (indexed by id, never
reused) and the list of all live handles (indexed by position). -/
structure World (K V : Type) where
  heap : List (List (K × V))
  handles : List Handle
deriving DecidableEq, Repr

/-- The content of instance `i` (garbage ids read as empty). -/
def heapAt (w : World K V) (i : Nat) : List (K × V) :=
  w.heap.getD i []

/-- The handle at position `a` (a default empty handle out of range). -/
def hGet (w : World K V) (a : Nat) : Handle :=
  w.handles.getD a ⟨none, false⟩

/-- `data_ptr.use_count()`: the number of handles owning instance `i`. -/
def useCount (w : World K V) (i : Nat) : Nat :=
  w.handles.countP (fun h => h.ptr == some i)

/-- `binder::get_new_unique_shared(old_ptr, cond)` (src/binder.h:27-36) with
`cond = (data_ptr.use_count() == 1)` as at every call site: a fresh empty
instance when the pointer is null, the instance itself when uniquely owned,
otherwise a deep clone (`binder_data`'s copy constructor copies the content
list and rebuilds the index from scratch, so the clone is a fresh id with an
equal content list).  Returns the target id and the (possibly grown) heap. -/
def resolveTarget (w : World K V) (p : Option Nat) : Nat × List (List (K × V)) :=
  match p with
  | none => (w.heap.length, w.heap ++ [[]])
  | some i =>
    if useCount w i == 1 then (i, w.heap)
    else (w.heap.length, w.heap ++ [heapAt w i])

/-- What the handle at `a` observes: the content sequence of its instance
(empty when `data_ptr` is null). -/
def obs (w : World K V) (a : Nat) : List (K × V) :=
  match (hGet w a).ptr with
  | none => []
  | some i => heapAt w i

/-- `binder::size` (src/binder.h:131-133). -/
def hSize (w : World K V) (a : Nat) : Nat :=
  (obs w a).length

/-- `binder::insert_front` (src/binder.h:73-78): resolve the target via
`get_new_unique_shared`, delegate, and only on success reset `read_called`
and commit `data_ptr`.  On failure the exception propagates with the
handle's fields untouched (the discarded temporary clone stays in the heap
as unreferenced garbage). -/
def hInsertFront (w : World K V) (a : Nat) (k : K) (v : V) :
    World K V × Option BErr :=
  let h := hGet w a
  let r := resolveTarget w h.ptr
  match dInsertFront k v (r.2.getD r.1 []) with
  | .error e => (⟨r.2, w.handles⟩, some e)
  | .ok c => (⟨r.2.set r.1 c, w.handles.set a ⟨some r.1, false⟩⟩, none)

/-- `binder::insert_after` (src/binder.h:80-87): throw `EmptyContainer` when
`data_ptr` is null, else resolve, delegate, and commit only on success. -/
def hInsertAfter (w : World K V) (a : Nat) (pk k : K) (v : V) :
    World K V × Option BErr :=
  let h := hGet w a
  match h.ptr with
  | none => (w, some .EmptyContainer)
  | some _ =>
    let r := resolveTarget w h.ptr
    match dInsertAfter pk k v (r.2.getD r.1 []) with
    | .error e => (⟨r.2, w.handles⟩, some e)
    | .ok c => (⟨r.2.set r.1 c, w.handles.set a ⟨some r.1, false⟩⟩, none)

/-- `binder::remove()` (src/binder.h:89-99): throw `EmptyContainer` when
`data_ptr` is null, else resolve, delegate, release the instance if it
became empty, reset the flag and commit. -/
def hRemoveFront (w : World K V) (a : Nat) : World K V × Option BErr :=
  let h := hGet w a
  match h.ptr with
  | none => (w, some .EmptyContainer)
  | some _ =>
    let r := resolveTarget w h.ptr
    match dRemoveFront (r.2.getD r.1 []) with
    | .error e => (⟨r.2, w.handles⟩, some e)
    | .ok c =>
      let p : Option Nat := if c.isEmpty then none else some r.1
      (⟨r.2.set r.1 c, w.handles.set a ⟨p, false⟩⟩, none)

/-- `binder::remove(K const&)` (src/binder.h:101-111): same shape as
`remove()` with the keyed deletion. -/
def hRemoveKey (w : World K V) (a : Nat) (k : K) : World K V × Option BErr :=
  let h := hGet w a
  match h.ptr with
  | none => (w, some .EmptyContainer)
  | some _ =>
    let r := resolveTarget w h.ptr
    match dRemoveKey k (r.2.getD r.1 []) with
    | .error e => (⟨r.2, w.handles⟩, some e)
    | .ok c =>
      let p : Option Nat := if c.isEmpty then none else some r.1
      (⟨r.2.set r.1 c, w.handles.set a ⟨p, false⟩⟩, none)

/-- A `V&` handed out by mutable `read`: the instance it points into and the
key whose value it aliases. -/
structure Ref (K : Type) where
  id : Nat
  key : K
deriving DecidableEq, Repr

/-- Mutable `binder::read` (src/binder.h:113-122): throw `EmptyContainer`
when `data_ptr` is null, else resolve (cloning when shared), look the key up
in the target, and on success commit `data_ptr`, set `read_called := true`
and hand out a reference into the target instance. -/
def hRead (w : World K V) (a : Nat) (k : K) :
    World K V × Option BErr × Option (Ref K) :=
  let h := hGet w a
  match h.ptr with
  | none => (w, some .EmptyContainer, none)
  | some _ =>
    let r := resolveTarget w h.ptr
    match dRead k (r.2.getD r.1 []) with
    | .error e => (⟨r.2, w.handles⟩, some e, none)
    | .ok _ => (⟨r.2, w.handles.set a ⟨some r.1, true⟩⟩, none, some ⟨r.1, k⟩)

/-- Const `binder::read` (src/binder.h:124-129): `EmptyContainer` when
`data_ptr` is null, else a pure lookup on the current instance — no clone,
no flag change, no state change at all. -/
def hReadConst (w : World K V) (a : Nat) (k : K) : Except BErr V :=
  match (hGet w a).ptr with
  | none => .error .EmptyContainer
  | some i => dRead k (heapAt w i)

/-- Writing through a reference previously returned by mutable `read`. -/
def writeRef (w : World K V) (r : Ref K) (v : V) : World K V :=
  ⟨w.heap.set r.id (setValList r.key v (heapAt w r.id)), w.handles⟩

/-- `binder::clear` (src/binder.h:135-138). -/
def hClear (w : World K V) (a : Nat) : World K V :=
  ⟨w.heap, w.handles.set a ⟨none, false⟩⟩

/-- `binder`'s copy constructor (src/binder.h:48-52): if the source's
`read_called` is set, deep-clone `*rhs.data_ptr` — undefined behaviour
(modelled as `none`) when `rhs.data_ptr` is null — else share the pointer;
the new handle starts with `read_called = false` and is appended to the
world's handle list. -/
def copyCon (w : World K V) (src : Nat) : Option (World K V) :=
  let h := hGet w src
  if h.read_called then
    match h.ptr with
    | none => none
    | some i =>
      some ⟨w.heap ++ [heapAt w i], w.handles ++ [⟨some w.heap.length, false⟩]⟩
  else some ⟨w.heap, w.handles ++ [⟨h.ptr, false⟩]⟩

/-- `binder`'s copy assignment (src/binder.h:58-65): share `rhs.data_ptr`
when it is null or `rhs.read_called` is false, else deep-clone; the target's
`read_called` is reset to false. -/
def copyAssign (w : World K V) (dst src : Nat) : World K V :=
  let h := hGet w src
  match h.ptr with
  | none => ⟨w.heap, w.handles.set dst ⟨none, false⟩⟩
  | some i =>
    if h.read_called then
      ⟨w.heap ++ [heapAt w i], w.handles.set dst ⟨some w.heap.length, false⟩⟩
    else ⟨w.heap, w.handles.set dst ⟨some i, false⟩⟩

/-- `binder`'s move constructor (src/binder.h:54-56): the new handle takes
the source's pointer and flag; the source's pointer is nulled but its
`read_called` flag is left as it was (moving a `bool` copies it). -/
def moveCon (w : World K V) (src : Nat) : World K V :=
  let h := hGet w src
  ⟨w.heap, (w.handles.set src ⟨none, h.read_called⟩) ++ [⟨h.ptr, h.read_called⟩]⟩

/-- `binder`'s move assignment (src/binder.h:67-71), for `dst ≠ src`: the
target takes the source's pointer and flag; the moved-from `shared_ptr` is
null afterwards, while the source's `read_called` keeps its value. -/
def moveAssign (w : World K V) (dst src : Nat) : World K V :=
  let h := hGet w src
  ⟨w.heap, (w.handles.set src ⟨none, h.read_called⟩).set dst ⟨h.ptr, h.read_called⟩⟩

/-- `binder::const_iterator` (src/binder.h:244-305): an optional position in
the content sequence plus the identity of the instance it walks (`none` for
the default-constructed iterator's null `obj_ptr`).  Equality is field-wise,
as in `operator==`. -/
structure CIter where
  pos : Option Nat
  obj : Option Nat
deriving DecidableEq, Repr

/-- `binder::cbegin` (src/binder.h:142-144). -/
def cbegin (w : World K V) (a : Nat) : CIter :=
  match (hGet w a).ptr with
  | none => ⟨none, none⟩
  | some i => ⟨some 0, some i⟩

/-- `binder::cend` (src/binder.h:146-148). -/
def cend (w : World K V) (a : Nat) : CIter :=
  match (hGet w a).ptr with
  | none => ⟨none, none⟩
  | some i => ⟨some (heapAt w i).length, some i⟩

/-- The representation invariant every world reachable through the public API
satisfies: each handle's pointer refers inside the heap, to an instance
that is not empty (an instance that becomes empty is released at once). -/
def InvB (w : World K V) : Bool :=
  w.handles.all fun h =>
    match h.ptr with
    | none => true
    | some i => decide (i < w.heap.length) && !(w.heap.getD i []).isEmpty

/-- A small two-handle world used to instantiate the sharing theorems:
both handles share instance 0, whose content is the single entry (0, 0). -/
def wShared : World Nat Nat :=
  ⟨[[(0, 0)]], [⟨some 0, false⟩, ⟨some 0, false⟩]⟩

/-- A one-handle world owning the two-entry instance [(1, 10), (2, 20)]. -/
def wOwn : World Nat Nat :=
  ⟨[[(1, 10), (2, 20)]], [⟨some 0, false⟩]⟩

/-- A one-handle world whose handle has handed out a mutable reference
(`read_called` set) into its singleton instance. -/
def wExposed : World Nat Nat :=
  ⟨[[(7, 70)]], [⟨some 0, true⟩]⟩

/-! The stale-reference scenario: a mutable reference is retained across a
later mutation of its own handle.  The mutation (unique owner, in place)
resets `read_called` while the reference stays valid; a copy made
afterwards therefore shares the storage, and a write through the retained
reference reaches the copy. -/

/-- Stale-reference scenario start: one handle owning the single entry
(0, 10). -/
def wLeak0 : World Nat Nat := ⟨[[(0, 10)]], [⟨some 0, false⟩]⟩

/-- After the handle's mutable `read 0` (unique owner, so no clone; the
returned reference aliases instance 0's node for key 0). -/
def wLeak1 : World Nat Nat := (hRead wLeak0 0 0).1

/-- The reference returned by that read. -/
def leakRef : Ref Nat := ((hRead wLeak0 0 0).2.2).getD ⟨0, 0⟩

/-- After `insert_front 1 11` on the same handle: still the unique owner,
so the mutation is in place and `read_called` is reset (src/binder.h:76)
while the reference stays valid. -/
def wLeak2 : World Nat Nat := (hInsertFront wLeak1 0 1 11).1

/-- After copy-constructing handle 1 from handle 0: the flag is false
again, so the storage is shared (src/binder.h:51). -/
def wLeak3 : World Nat Nat := (copyCon wLeak2 0).getD wLeak2

/-- After writing 99 through the stale reference. -/
def wLeak4 : World Nat Nat := writeRef wLeak3 leakRef 99

/-! The spec's concrete scenario, step by step, starting from one freshly
constructed (empty) handle at position 0.  The copy made of it lives at
position 1. -/

/-- Scenario start: a single default-constructed `binder<std::string, int>`. -/
def scen0 : World String Int := ⟨[], [⟨none, false⟩]⟩

/-- After `insert_front("b", 2)`. -/
def scen1 : World String Int := (hInsertFront scen0 0 "b" 2).1

/-- After `insert_front("a", 1)`. -/
def scen2 : World String Int := (hInsertFront scen1 0 "a" 1).1

/-- After `insert_after("a", "c", 3)`. -/
def scen3 : World String Int := (hInsertAfter scen2 0 "a" "c" 3).1

/-- After `remove("a")`. -/
def scen4 : World String Int := (hRemoveKey scen3 0 "a").1

/-- After copy-constructing a second handle from the first. -/
def scen5 : World String Int := (copyCon scen4 0).getD scen4

/-- After the copy's mutable `read("c")` (which clones, since storage was
shared). -/
def scen6 : World String Int := (hRead scen5 1 "c").1

/-- The mutable reference returned by that `read("c")`. -/
def scenRef : Ref String := ((hRead scen5 1 "c").2.2).getD ⟨0, "c"⟩

/-- After writing 30 through that reference. -/
def scen7 : World String Int := writeRef scen6 scenRef 30

/-! ### Basic list-access lemmas -/

theorem getD_set_ne {α : Type} {i j : Nat} (h : i ≠ j) (l : List α) (c d : α) :
    (l.set i c).getD j d = l.getD j d := by
  simp [List.getD_eq_getElem?_getD, List.getElem?_set_ne h]

theorem getD_set_self {α : Type} {i : Nat} {l : List α} (h : i < l.length)
    (c d : α) : (l.set i c).getD i d = c := by
  simp [List.getD_eq_getElem?_getD, List.getElem?_set_self, h]

theorem getD_append_left {α : Type} {i : Nat} {l : List α} (l' : List α)
    (h : i < l.length) (d : α) : (l ++ l').getD i d = l.getD i d := by
  simp [List.getD_eq_getElem?_getD, List.getElem?_append_left h]

theorem getD_append_length {α : Type} (l : List α) (x d : α) :
    (l ++ [x]).getD l.length d = x := by
  simp [List.getD_eq_getElem?_getD]

/-- Two distinct positions whose elements both satisfy `p` force at least
two `p`-satisfying occurrences. -/
theorem two_le_countP {α : Type} (p : α → Bool) :
    ∀ (l : List α) (a b : Nat) (hab : a < b) (hb : b < l.length),
      p (l.get ⟨a, Nat.lt_trans hab hb⟩) = true → p (l.get ⟨b, hb⟩) = true →
      2 ≤ l.countP p
  | [], _, _, _, hb => by simp at hb
  | x :: t, 0, b + 1, _, hb => fun hpa hpb => by
    have hbt : b < t.length := Nat.lt_of_succ_lt_succ hb
    have h1 : 0 < t.countP p := by
      refine List.countP_pos_iff.mpr ⟨t.get ⟨b, hbt⟩, List.get_mem t b hbt, ?_⟩
      simpa using hpb
    have hx : p x = true := by simpa using hpa
    simp only [List.countP_cons, hx, if_pos]
    omega
  | x :: t, a + 1, b + 1, hab, hb => fun hpa hpb => by
    have hbt : b < t.length := Nat.lt_of_succ_lt_succ hb
    have ih := two_le_countP p t a b (Nat.lt_of_succ_lt_succ hab) hbt
      (by simpa using hpa) (by simpa using hpb)
    rw [List.countP_cons]
    omega

/-! ### Model-level lemmas -/

/-- Unpacking the representation invariant at one handle. -/
theorem invB_spec {w : World K V} (hInv : InvB w = true) (a : Nat) {i : Nat}
    (hi : (hGet w a).ptr = some i) : i < w.heap.length ∧ heapAt w i ≠ [] := by
  by_cases ha : a < w.handles.length
  · have hmem : hGet w a ∈ w.handles := by
      rw [hGet, List.getD_eq_getElem?_getD, List.getElem?_eq_getElem ha]
      exact List.getElem_mem ha
    have := (List.all_eq_true.mp hInv) _ hmem
    rw [hi] at this
    simp only [Bool.and_eq_true, decide_eq_true_eq] at this
    refine ⟨this.1, ?_⟩
    have h2 := this.2
    rw [heapAt]
    intro hc
    rw [hc] at h2
    simp at h2
  · rw [hGet, List.getD_eq_getElem?_getD,
      List.getElem?_eq_none (Nat.le_of_not_lt ha)] at hi
    simp at hi

/-- Re-packing the representation invariant from its per-handle form. -/
theorem invB_of_spec {w : World K V}
    (h : ∀ a i, (hGet w a).ptr = some i → i < w.heap.length ∧ heapAt w i ≠ []) :
    InvB w = true := by
  refine List.all_eq_true.mpr ?_
  intro x hx
  obtain ⟨a, ha, hax⟩ := List.getElem_of_mem hx
  have hga : hGet w a = x := by
    simp [hGet, List.getD_eq_getElem?_getD, List.getElem?_eq_getElem ha, hax]
  match hp : x.ptr with
  | none => simp
  | some i =>
    have := h a i (by rw [hga, hp])
    simp only [Bool.and_eq_true, decide_eq_true_eq]
    refine ⟨this.1, ?_⟩
    have h2 := this.2
    rw [heapAt] at h2
    simpa [List.isEmpty_iff] using h2

/-- A handle whose pointer is `some i` is itself one of the owners
`use_count` counts. -/
theorem useCount_pos {w : World K V} {a i : Nat}
    (hi : (hGet w a).ptr = some i) : 0 < useCount w i := by
  by_cases ha : a < w.handles.length
  · have hmem : hGet w a ∈ w.handles := by
      rw [hGet, List.getD_eq_getElem?_getD, List.getElem?_eq_getElem ha]
      exact List.getElem_mem ha
    exact List.countP_pos_iff.mpr ⟨hGet w a, hmem, by simp [hi]⟩
  · rw [hGet, List.getD_eq_getElem?_getD,
      List.getElem?_eq_none (Nat.le_of_not_lt ha)] at hi
    simp at hi

/-- If `b` is the unique owner of instance `i` (`use_count == 1`), no other
handle points to `i`. -/
theorem ptr_ne_of_unique {w : World K V} {a b i : Nat} (hab : a ≠ b)
    (hb : (hGet w b).ptr = some i) (hu : useCount w i = 1) :
    (hGet w a).ptr ≠ some i := by
  intro hai
  by_cases ha : a < w.handles.length
  · by_cases hbl : b < w.handles.length
    · have hpa : (fun h => h.ptr == some i) (w.handles.get ⟨a, ha⟩) = true := by
        have hh : hGet w a = w.handles.get ⟨a, ha⟩ := by
          simp [hGet, List.getD_eq_getElem?_getD, List.getElem?_eq_getElem ha]
        rw [hh] at hai
        simpa using hai
      have hpb : (fun h => h.ptr == some i) (w.handles.get ⟨b, hbl⟩) = true := by
        have hh : hGet w b = w.handles.get ⟨b, hbl⟩ := by
          simp [hGet, List.getD_eq_getElem?_getD, List.getElem?_eq_getElem hbl]
        rw [hh] at hb
        simpa using hb
      rcases Nat.lt_or_ge a b with h | h
      · have := two_le_countP (fun h => h.ptr == some i) w.handles a b h hbl hpa hpb
        rw [useCount] at hu
        omega
      · have hlt : b < a := Nat.lt_of_le_of_ne h (Ne.symm hab)
        have := two_le_countP (fun h => h.ptr == some i) w.handles b a hlt ha hpb hpa
        rw [useCount] at hu
        omega
    · rw [hGet, List.getD_eq_getElem?_getD,
        List.getElem?_eq_none (Nat.le_of_not_lt hbl)] at hb
      simp at hb
  · rw [hGet, List.getD_eq_getElem?_getD,
      List.getElem?_eq_none (Nat.le_of_not_lt ha)] at hai
    simp at hai

/-- The content `get_new_unique_shared` hands to the delegated operation is
exactly what the handle observes (fresh empty = empty observation; unique =
the instance itself; shared = an equal clone). -/
theorem resolveTarget_content (w : World K V) (a : Nat) :
    ((resolveTarget w (hGet w a).ptr).2).getD (resolveTarget w (hGet w a).ptr).1 []
      = obs w a := by
  match hp : (hGet w a).ptr with
  | none =>
    simp only [obs, resolveTarget, hp]
    exact getD_append_length _ _ _
  | some i =>
    by_cases hu : (useCount w i == 1) = true
    · simp only [obs, resolveTarget, hp, hu, if_true]
      rfl
    · rw [Bool.not_eq_true] at hu
      simp only [obs, resolveTarget, hp, hu, Bool.false_eq_true, if_false]
      exact getD_append_length _ _ _

/-- Frame property of the target resolution: whatever instance another
handle `a ≠ b` observes is untouched by writing the resolved target of `b`
(the target is either fresh or uniquely owned by `b`). -/
theorem heapAt_frame {w : World K V} {a b : Nat} (hab : a ≠ b)
    (hInv : InvB w = true) (c : List (K × V)) {i : Nat}
    (hi : (hGet w a).ptr = some i) :
    (((resolveTarget w (hGet w b).ptr).2).set (resolveTarget w (hGet w b).ptr).1 c).getD i []
      = heapAt w i := by
  have hlt : i < w.heap.length := (invB_spec hInv a hi).1
  match hp : (hGet w b).ptr with
  | none =>
    have hne : w.heap.length ≠ i := by omega
    simp only [resolveTarget, hp]
    rw [getD_set_ne hne, getD_append_left _ hlt]
    rfl
  | some j =>
    by_cases hu : (useCount w j == 1) = true
    · simp only [resolveTarget, hp, hu, if_true]
      have hij : j ≠ i := by
        intro h
        exact ptr_ne_of_unique hab hp (by simpa using hu) (h ▸ hi)
      rw [getD_set_ne hij]
      rfl
    · rw [Bool.not_eq_true] at hu
      simp only [resolveTarget, hp, hu, Bool.false_eq_true, if_false]
      have hne : w.heap.length ≠ i := by omega
      rw [getD_set_ne hne, getD_append_left _ hlt]
      rfl

/-- The resolved heap always extends the old heap. -/
theorem resolveTarget_heap (w : World K V) (p : Option Nat) :
    ∃ e, (resolveTarget w p).2 = w.heap ++ e := by
  match p with
  | none => exact ⟨[[]], rfl⟩
  | some i =>
    by_cases hu : (useCount w i == 1) = true
    · exact ⟨[], by simp [resolveTarget, hu]⟩
    · rw [Bool.not_eq_true] at hu
      exact ⟨[heapAt w i], by simp [resolveTarget, hu]⟩

/-- The resolved target id is within the resolved heap. -/
theorem target_lt (w : World K V) (a : Nat) (hInv : InvB w = true) :
    (resolveTarget w (hGet w a).ptr).1 < (resolveTarget w (hGet w a).ptr).2.length := by
  match hp : (hGet w a).ptr with
  | none => simp [resolveTarget, hp]
  | some i =>
    by_cases hu : (useCount w i == 1) = true
    · have := (invB_spec hInv a hp).1
      simpa [resolveTarget, hp, hu] using this
    · rw [Bool.not_eq_true] at hu
      simp [resolveTarget, hp, hu]

/-- No handle other than `a` points at the instance `a`'s mutation resolves
to: that instance is either freshly allocated or uniquely owned by `a`. -/
theorem target_not_aliased {w : World K V} {b a : Nat} (hba : b ≠ a)
    (hInv : InvB w = true) :
    (hGet w b).ptr ≠ some (resolveTarget w (hGet w a).ptr).1 := by
  intro hcontra
  match hp : (hGet w a).ptr with
  | none =>
    rw [hp] at hcontra
    have := (invB_spec hInv b hcontra).1
    simp [resolveTarget] at this
  | some i =>
    rw [hp] at hcontra
    by_cases hu : (useCount w i == 1) = true
    · simp only [resolveTarget, hu, if_true] at hcontra
      exact ptr_ne_of_unique hba hp (by simpa using hu) hcontra
    · rw [Bool.not_eq_true] at hu
      simp only [resolveTarget, hu, Bool.false_eq_true, if_false] at hcontra
      have := (invB_spec hInv b hcontra).1
      omega

/-! ### Characterizations of the handle operations in terms of the
delegated storage-engine operation applied to the handle's observation -/

theorem hInsertFront_eq (w : World K V) (a : Nat) (k : K) (v : V) :
    hInsertFront w a k v =
      (match dInsertFront k v (obs w a) with
       | .error e => (⟨(resolveTarget w (hGet w a).ptr).2, w.handles⟩, some e)
       | .ok c =>
         (⟨(resolveTarget w (hGet w a).ptr).2.set (resolveTarget w (hGet w a).ptr).1 c,
           w.handles.set a ⟨some (resolveTarget w (hGet w a).ptr).1, false⟩⟩, none)) := by
  have hc := resolveTarget_content w a
  simp only [hInsertFront, hc]

theorem hInsertAfter_eq (w : World K V) (a : Nat) (pk k : K) (v : V) {i : Nat}
    (hp : (hGet w a).ptr = some i) :
    hInsertAfter w a pk k v =
      (match dInsertAfter pk k v (obs w a) with
       | .error e => (⟨(resolveTarget w (hGet w a).ptr).2, w.handles⟩, some e)
       | .ok c =>
         (⟨(resolveTarget w (hGet w a).ptr).2.set (resolveTarget w (hGet w a).ptr).1 c,
           w.handles.set a ⟨some (resolveTarget w (hGet w a).ptr).1, false⟩⟩, none)) := by
  have hc := resolveTarget_content w a
  rw [hp] at hc
  simp only [hInsertAfter, hp, hc]

theorem hRemoveFront_eq (w : World K V) (a : Nat) {i : Nat}
    (hp : (hGet w a).ptr = some i) :
    hRemoveFront w a =
      (match dRemoveFront (obs w a) with
       | .error e => (⟨(resolveTarget w (hGet w a).ptr).2, w.handles⟩, some e)
       | .ok c =>
         (⟨(resolveTarget w (hGet w a).ptr).2.set (resolveTarget w (hGet w a).ptr).1 c,
           w.handles.set a
             ⟨if c.isEmpty then none else some (resolveTarget w (hGet w a).ptr).1, false⟩⟩,
          none)) := by
  have hc := resolveTarget_content w a
  rw [hp] at hc
  simp only [hRemoveFront, hp, hc]

theorem hRemoveKey_eq (w : World K V) (a : Nat) (k : K) {i : Nat}
    (hp : (hGet w a).ptr = some i) :
    hRemoveKey w a k =
      (match dRemoveKey k (obs w a) with
       | .error e => (⟨(resolveTarget w (hGet w a).ptr).2, w.handles⟩, some e)
       | .ok c =>
         (⟨(resolveTarget w (hGet w a).ptr).2.set (resolveTarget w (hGet w a).ptr).1 c,
           w.handles.set a
             ⟨if c.isEmpty then none else some (resolveTarget w (hGet w a).ptr).1, false⟩⟩,
          none)) := by
  have hc := resolveTarget_content w a
  rw [hp] at hc
  simp only [hRemoveKey, hp, hc]

theorem hRead_eq (w : World K V) (a : Nat) (k : K) {i : Nat}
    (hp : (hGet w a).ptr = some i) :
    hRead w a k =
      (match dRead k (obs w a) with
       | .error e => (⟨(resolveTarget w (hGet w a).ptr).2, w.handles⟩, some e, none)
       | .ok _ =>
         (⟨(resolveTarget w (hGet w a).ptr).2,
           w.handles.set a ⟨some (resolveTarget w (hGet w a).ptr).1, true⟩⟩,
          none, some ⟨(resolveTarget w (hGet w a).ptr).1, k⟩)) := by
  have hc := resolveTarget_content w a
  rw [hp] at hc
  simp only [hRead, hp, hc]

theorem hInsertAfter_none {w : World K V} {a : Nat} (pk k : K) (v : V)
    (hp : (hGet w a).ptr = none) :
    hInsertAfter w a pk k v = (w, some .EmptyContainer) := by
  rw [hInsertAfter]
  simp only [hp]

theorem hRemoveFront_none {w : World K V} {a : Nat}
    (hp : (hGet w a).ptr = none) :
    hRemoveFront w a = (w, some .EmptyContainer) := by
  rw [hRemoveFront]
  simp only [hp]

theorem hRemoveKey_none {w : World K V} {a : Nat} (k : K)
    (hp : (hGet w a).ptr = none) :
    hRemoveKey w a k = (w, some .EmptyContainer) := by
  rw [hRemoveKey]
  simp only [hp]

theorem hRead_none {w : World K V} {a : Nat} (k : K)
    (hp : (hGet w a).ptr = none) :
    hRead w a k = (w, some .EmptyContainer, none) := by
  rw [hRead]
  simp only [hp]

/-! ### Frame and commit lemmas for the observation map -/

/-- Error path: nobody's observation changes when the resolved heap is kept
but nothing is written and no handle is updated. -/
theorem obs_frame_err {w : World K V} (b a : Nat) (hInv : InvB w = true) :
    obs (⟨(resolveTarget w (hGet w b).ptr).2, w.handles⟩ : World K V) a = obs w a := by
  obtain ⟨e, he⟩ := resolveTarget_heap w (hGet w b).ptr
  rw [he]
  match hp : (hGet w a).ptr with
  | none => simp [obs, hGet] at hp ⊢; rw [hp]
  | some i =>
    have hlt := (invB_spec hInv a hp).1
    have hpa : (hGet (⟨w.heap ++ e, w.handles⟩ : World K V) a).ptr = some i := hp
    simp only [obs, hpa, hp, heapAt]
    exact getD_append_left _ hlt _

/-- Success path of a mutation through `b`: any other handle `a`'s
observation is untouched. -/
theorem obs_frame_set {w : World K V} {a b : Nat} (hab : a ≠ b)
    (hInv : InvB w = true) (c : List (K × V)) (x : Handle) :
    obs (⟨(resolveTarget w (hGet w b).ptr).2.set (resolveTarget w (hGet w b).ptr).1 c,
          w.handles.set b x⟩ : World K V) a = obs w a := by
  have hh : (hGet (⟨(resolveTarget w (hGet w b).ptr).2.set (resolveTarget w (hGet w b).ptr).1 c,
      w.handles.set b x⟩ : World K V) a) = hGet w a := by
    simp only [hGet]
    exact getD_set_ne (Ne.symm hab) _ _ _
  match hp : (hGet w a).ptr with
  | none => simp only [obs, hh, hp]
  | some i =>
    simp only [obs, hh, hp, heapAt]
    exact heapAt_frame hab hInv c hp

/-- Success path of a mutable `read` through `b` (no heap write, handle `b`
redirected): any other handle `a`'s observation is untouched. -/
theorem obs_frame_ext {w : World K V} {a b : Nat} (hab : a ≠ b)
    (hInv : InvB w = true) (x : Handle) :
    obs (⟨(resolveTarget w (hGet w b).ptr).2, w.handles.set b x⟩ : World K V) a
      = obs w a := by
  obtain ⟨e, he⟩ := resolveTarget_heap w (hGet w b).ptr
  have hh : (hGet (⟨(resolveTarget w (hGet w b).ptr).2, w.handles.set b x⟩ : World K V) a)
      = hGet w a := by
    simp only [hGet]
    exact getD_set_ne (Ne.symm hab) _ _ _
  rw [he] at hh ⊢
  match hp : (hGet w a).ptr with
  | none => simp only [obs, hh, hp]
  | some i =>
    have hlt := (invB_spec hInv a hp).1
    simp only [obs, hh, hp, heapAt]
    exact getD_append_left _ hlt _

/-- Writing through a reference into an instance a handle does not own
leaves that handle's observation unchanged. -/
theorem obs_writeRef_ne {w : World K V} {a : Nat} {r : Ref K}
    (hne : (hGet w a).ptr ≠ some r.id) (v : V) :
    obs (writeRef w r v) a = obs w a := by
  match hp : (hGet w a).ptr with
  | none =>
    have hp2 : (hGet (writeRef w r v) a).ptr = none := hp
    simp only [obs, hp2, hp]
  | some i =>
    have hir : r.id ≠ i := by
      intro h
      exact hne (h ▸ hp)
    have hp2 : (hGet (writeRef w r v) a).ptr = some i := hp
    simp only [obs, hp2, hp]
    simp only [writeRef, heapAt]
    exact getD_set_ne hir _ _ _

/-- Committed observation: after a successful mutation on handle `a`, it
observes exactly the content the storage engine produced. -/
theorem obs_commit (w : World K V) (a : Nat) (hInv : InvB w = true)
    (ha : a < w.handles.length) (c : List (K × V)) (fl : Bool) :
    obs (⟨(resolveTarget w (hGet w a).ptr).2.set (resolveTarget w (hGet w a).ptr).1 c,
          w.handles.set a ⟨some (resolveTarget w (hGet w a).ptr).1, fl⟩⟩ : World K V) a
      = c := by
  have hlen : a < (w.handles.set a
      (⟨some (resolveTarget w (hGet w a).ptr).1, fl⟩ : Handle)).length := by
    simpa using ha
  have hh : (hGet (⟨(resolveTarget w (hGet w a).ptr).2.set (resolveTarget w (hGet w a).ptr).1 c,
      w.handles.set a ⟨some (resolveTarget w (hGet w a).ptr).1, fl⟩⟩ : World K V) a)
      = ⟨some (resolveTarget w (hGet w a).ptr).1, fl⟩ := by
    simp only [hGet]
    rw [getD_set_self (by simpa using ha)]
  simp only [obs, hh, heapAt]
  exact getD_set_self (by simpa using target_lt w a hInv) _ _

/-- Committed observation for the removal operations, whose new pointer is
conditionally released. -/
theorem obs_commit_remove (w : World K V) (a : Nat) (hInv : InvB w = true)
    (ha : a < w.handles.length) (c : List (K × V)) :
    obs (⟨(resolveTarget w (hGet w a).ptr).2.set (resolveTarget w (hGet w a).ptr).1 c,
          w.handles.set a
            ⟨if c.isEmpty then none else some (resolveTarget w (hGet w a).ptr).1,
             false⟩⟩ : World K V) a = c := by
  match hc : c with
  | [] =>
    have hh : (hGet (⟨(resolveTarget w (hGet w a).ptr).2.set (resolveTarget w (hGet w a).ptr).1 [],
        w.handles.set a ⟨none, false⟩⟩ : World K V) a) = ⟨none, false⟩ := by
      simp only [hGet]
      rw [getD_set_self (by simpa using ha)]
    simp only [List.isEmpty_nil, if_true, obs, hh]
  | e :: t =>
    have := obs_commit w a hInv ha (e :: t) false
    simpa using this

/-! ### Storage-engine lemmas -/

theorem containsKey_nil (k : K) : containsKey k ([] : List (K × V)) = false := rfl

theorem containsKey_cons (k : K) (e : K × V) (t : List (K × V)) :
    containsKey k (e :: t) = (decide (e.1 = k) || containsKey k t) := rfl

theorem dInsertFront_ok {k : K} {v : V} {l c : List (K × V)}
    (h : dInsertFront k v l = .ok c) :
    containsKey k l = false ∧ c = (k, v) :: l := by
  rw [dInsertFront] at h
  by_cases h1 : containsKey k l
  · simp [h1] at h
  · simp only [h1, Bool.false_eq_true, if_false, Except.ok.injEq] at h
    exact ⟨by simpa using h1, h.symm⟩

theorem dInsertAfter_ok {pk k : K} {v : V} {l c : List (K × V)}
    (h : dInsertAfter pk k v l = .ok c) :
    containsKey k l = false ∧ containsKey pk l = true ∧
      c = insertAfterList pk k v l := by
  rw [dInsertAfter] at h
  by_cases h1 : containsKey k l
  · simp [h1] at h
  · by_cases h2 : containsKey pk l
    · simp only [h1, Bool.false_eq_true, if_false, h2, if_true,
        Except.ok.injEq] at h
      exact ⟨by simpa using h1, by simpa using h2, h.symm⟩
    · simp [h1, h2] at h

theorem dRemoveKey_ok {k : K} {l c : List (K × V)}
    (h : dRemoveKey k l = .ok c) :
    containsKey k l = true ∧ c = removeKeyList k l := by
  rw [dRemoveKey] at h
  by_cases h1 : containsKey k l
  · simp only [h1, if_true, Except.ok.injEq] at h
    exact ⟨by simpa using h1, h.symm⟩
  · simp [h1] at h

/-- Decomposition of a successful `insert_after` at the storage-engine
level: the sequence splits at the (first, hence unique) anchor node, the new
entry lands immediately after it, and everything else keeps its place. -/
theorem insertAfterList_split (pk k : K) (v : V) :
    ∀ l : List (K × V), containsKey pk l = true →
      ∃ l1 vp l2, l = l1 ++ (pk, vp) :: l2 ∧ containsKey pk l1 = false ∧
        insertAfterList pk k v l = l1 ++ (pk, vp) :: (k, v) :: l2 := by
  intro l hpk
  induction l with
  | nil => simp [containsKey] at hpk
  | cons e t ih =>
    by_cases he : e.1 = pk
    · have hee : (pk, e.2) = e := by
        rw [← he]
      refine ⟨[], e.2, t, ?_, rfl, ?_⟩
      · simp [hee]
      · simp [insertAfterList, he, hee]
    · have hpt : containsKey pk t = true := by
        simpa [containsKey_cons, he] using hpk
      obtain ⟨l1, vp, l2, hl, hnl1, hins⟩ := ih hpt
      refine ⟨e :: l1, vp, l2, by simp [hl], ?_, ?_⟩
      · simp [containsKey_cons, hnl1, he]
      · simp [insertAfterList, he, hins]

theorem removeKeyList_cons_self (k : K) (v : V) (l : List (K × V)) :
    removeKeyList k ((k, v) :: l) = l := by
  simp [removeKeyList]

/-- Removing a freshly spliced-in key undoes the splice (whether or not the
anchor was present; if it was absent the splice did nothing). -/
theorem removeKeyList_insertAfterList (pk k : K) (v : V) :
    ∀ l : List (K × V), containsKey k l = false →
      removeKeyList k (insertAfterList pk k v l) = l := by
  intro l hk
  induction l with
  | nil => simp [insertAfterList, removeKeyList]
  | cons e t ih =>
    have hek : ¬(e.1 = k) := by
      intro h
      simp [containsKey_cons, h] at hk
    have hkt : containsKey k t = false := by
      simpa [containsKey_cons, hek] using hk
    by_cases he : e.1 = pk
    · have hpk : ¬(pk = k) := by
        rw [← he]
        exact hek
      simp [insertAfterList, he, removeKeyList, hek, hpk]
    · simp [insertAfterList, he, removeKeyList, hek, ih hkt]

/-- The spliced-in key is present after a successful splice. -/
theorem containsKey_insertAfterList (pk k : K) (v : V) :
    ∀ l : List (K × V), containsKey pk l = true →
      containsKey k (insertAfterList pk k v l) = true := by
  intro l hpk
  induction l with
  | nil => simp [containsKey] at hpk
  | cons e t ih =>
    by_cases he : e.1 = pk
    · simp [insertAfterList, he, containsKey_cons]
    · have hpt : containsKey pk t = true := by
        simpa [containsKey_cons, he] using hpk
      simp [insertAfterList, he, containsKey_cons, ih hpt]

/-- A handle with a non-null pointer is a real position in the world's
handle list. -/
theorem lt_handles_of_ptr {w : World K V} {a i : Nat}
    (hp : (hGet w a).ptr = some i) : a < w.handles.length := by
  by_contra hge
  rw [hGet, List.getD_eq_getElem?_getD,
    List.getElem?_eq_none (Nat.le_of_not_lt hge)] at hp
  simp at hp

/-! ### Preservation of the representation invariant -/

/-- Error path of a mutation: the invariant survives (the only heap change
is an unreferenced appended clone). -/
theorem invB_err {w : World K V} (b : Nat) (hInv : InvB w = true) :
    InvB (⟨(resolveTarget w (hGet w b).ptr).2, w.handles⟩ : World K V) = true := by
  obtain ⟨e, he⟩ := resolveTarget_heap w (hGet w b).ptr
  rw [he]
  refine invB_of_spec ?_
  intro c i hp
  have hpw : (hGet w c).ptr = some i := hp
  have h1 := invB_spec hInv c hpw
  refine ⟨by simp; omega, ?_⟩
  show (w.heap ++ e).getD i [] ≠ []
  rw [getD_append_left _ h1.1]
  exact h1.2

/-- Success path of an insertion (or any commit of non-empty content): the
invariant survives. -/
theorem invB_commit {w : World K V} (a : Nat) (hInv : InvB w = true)
    {c : List (K × V)} (hc : c ≠ []) (fl : Bool) :
    InvB (⟨(resolveTarget w (hGet w a).ptr).2.set (resolveTarget w (hGet w a).ptr).1 c,
           w.handles.set a ⟨some (resolveTarget w (hGet w a).ptr).1, fl⟩⟩ : World K V)
      = true := by
  refine invB_of_spec ?_
  intro b i hp
  by_cases hba : b = a
  · subst hba
    by_cases hb : b < w.handles.length
    · have hh : (hGet (⟨(resolveTarget w (hGet w b).ptr).2.set (resolveTarget w (hGet w b).ptr).1 c,
          w.handles.set b ⟨some (resolveTarget w (hGet w b).ptr).1, fl⟩⟩ : World K V) b)
          = ⟨some (resolveTarget w (hGet w b).ptr).1, fl⟩ := by
        simp only [hGet]
        exact getD_set_self (by simpa using hb) _ _
      rw [hh] at hp
      have hi : i = (resolveTarget w (hGet w b).ptr).1 := by
        simpa using hp.symm
      subst hi
      have hlt := target_lt w b hInv
      refine ⟨by simpa using hlt, ?_⟩
      show ((resolveTarget w (hGet w b).ptr).2.set (resolveTarget w (hGet w b).ptr).1 c).getD
        (resolveTarget w (hGet w b).ptr).1 [] ≠ []
      rw [getD_set_self hlt]
      exact hc
    · have hh : (hGet (⟨(resolveTarget w (hGet w b).ptr).2.set (resolveTarget w (hGet w b).ptr).1 c,
          w.handles.set b ⟨some (resolveTarget w (hGet w b).ptr).1, fl⟩⟩ : World K V) b).ptr
          = none := by
        simp only [hGet, List.getD_eq_getElem?_getD]
        rw [List.getElem?_eq_none (by simpa using Nat.le_of_not_lt hb)]
        rfl
      rw [hh] at hp
      exact Option.noConfusion hp
  · have hh : (hGet (⟨(resolveTarget w (hGet w a).ptr).2.set (resolveTarget w (hGet w a).ptr).1 c,
        w.handles.set a ⟨some (resolveTarget w (hGet w a).ptr).1, fl⟩⟩ : World K V) b)
        = hGet w b := by
      simp only [hGet]
      exact getD_set_ne (Ne.symm hba) _ _ _
    rw [hh] at hp
    have h1 := invB_spec hInv b hp
    obtain ⟨e, he⟩ := resolveTarget_heap w (hGet w a).ptr
    refine ⟨?_, ?_⟩
    · rw [List.length_set, he]
      simp
      omega
    · show ((resolveTarget w (hGet w a).ptr).2.set (resolveTarget w (hGet w a).ptr).1 c).getD i []
        ≠ []
      rw [heapAt_frame hba hInv c hp]
      exact h1.2

/-- Success path of a removal (content may become empty, in which case the
pointer is released): the invariant survives. -/
theorem invB_commit_remove {w : World K V} (a : Nat) (hInv : InvB w = true)
    (c : List (K × V)) :
    InvB (⟨(resolveTarget w (hGet w a).ptr).2.set (resolveTarget w (hGet w a).ptr).1 c,
           w.handles.set a
             ⟨if c.isEmpty then none else some (resolveTarget w (hGet w a).ptr).1,
              false⟩⟩ : World K V) = true := by
  match hc : c with
  | [] =>
    simp only [List.isEmpty_nil, if_true]
    refine invB_of_spec ?_
    intro b i hp
    by_cases hba : b = a
    · subst hba
      by_cases hb : b < w.handles.length
      · have hh : (hGet (⟨(resolveTarget w (hGet w b).ptr).2.set (resolveTarget w (hGet w b).ptr).1 [],
            w.handles.set b (⟨none, false⟩ : Handle)⟩ : World K V) b)
            = ⟨none, false⟩ := by
          simp only [hGet]
          exact getD_set_self (by simpa using hb) _ _
        rw [hh] at hp
        exact Option.noConfusion hp
      · have hh : (hGet (⟨(resolveTarget w (hGet w b).ptr).2.set (resolveTarget w (hGet w b).ptr).1 [],
            w.handles.set b (⟨none, false⟩ : Handle)⟩ : World K V) b).ptr
            = none := by
          simp only [hGet, List.getD_eq_getElem?_getD]
          rw [List.getElem?_eq_none (by simpa using Nat.le_of_not_lt hb)]
          rfl
        rw [hh] at hp
        exact Option.noConfusion hp
    · have hh : (hGet (⟨(resolveTarget w (hGet w a).ptr).2.set (resolveTarget w (hGet w a).ptr).1 [],
          w.handles.set a (⟨none, false⟩ : Handle)⟩ : World K V) b)
          = hGet w b := by
        simp only [hGet]
        exact getD_set_ne (Ne.symm hba) _ _ _
      rw [hh] at hp
      have h1 := invB_spec hInv b hp
      obtain ⟨e, he⟩ := resolveTarget_heap w (hGet w a).ptr
      refine ⟨?_, ?_⟩
      · rw [List.length_set, he]
        simp
        omega
      · show ((resolveTarget w (hGet w a).ptr).2.set (resolveTarget w (hGet w a).ptr).1 []).getD i []
          ≠ []
        rw [heapAt_frame hba hInv [] hp]
        exact h1.2
  | e0 :: t =>
    have := invB_commit a hInv (c := e0 :: t) (by simp) false
    simpa using this

/-- Success path of a mutable `read`: the invariant survives (the target's
content is the non-empty observation of the reading handle). -/
theorem invB_read {w : World K V} (a : Nat) (hInv : InvB w = true)
    (hobs : obs w a ≠ []) (fl : Bool) :
    InvB (⟨(resolveTarget w (hGet w a).ptr).2,
           w.handles.set a ⟨some (resolveTarget w (hGet w a).ptr).1, fl⟩⟩ : World K V)
      = true := by
  refine invB_of_spec ?_
  intro b i hp
  obtain ⟨e, he⟩ := resolveTarget_heap w (hGet w a).ptr
  by_cases hba : b = a
  · subst hba
    by_cases hb : b < w.handles.length
    · have hh : (hGet (⟨(resolveTarget w (hGet w b).ptr).2,
          w.handles.set b ⟨some (resolveTarget w (hGet w b).ptr).1, fl⟩⟩ : World K V) b)
          = ⟨some (resolveTarget w (hGet w b).ptr).1, fl⟩ := by
        simp only [hGet]
        exact getD_set_self (by simpa using hb) _ _
      rw [hh] at hp
      have hi : i = (resolveTarget w (hGet w b).ptr).1 := by
        simpa using hp.symm
      subst hi
      refine ⟨target_lt w b hInv, ?_⟩
      show ((resolveTarget w (hGet w b).ptr).2).getD (resolveTarget w (hGet w b).ptr).1 [] ≠ []
      rw [resolveTarget_content w b]
      exact hobs
    · have hh : (hGet (⟨(resolveTarget w (hGet w b).ptr).2,
          w.handles.set b ⟨some (resolveTarget w (hGet w b).ptr).1, fl⟩⟩ : World K V) b).ptr
          = none := by
        simp only [hGet, List.getD_eq_getElem?_getD]
        rw [List.getElem?_eq_none (by simpa using Nat.le_of_not_lt hb)]
        rfl
      rw [hh] at hp
      exact Option.noConfusion hp
  · have hh : (hGet (⟨(resolveTarget w (hGet w a).ptr).2,
        w.handles.set a ⟨some (resolveTarget w (hGet w a).ptr).1, fl⟩⟩ : World K V) b)
        = hGet w b := by
      simp only [hGet]
      exact getD_set_ne (Ne.symm hba) _ _ _
    rw [hh] at hp
    have h1 := invB_spec hInv b hp
    refine ⟨?_, ?_⟩
    · rw [he]
      simp
      omega
    · show ((resolveTarget w (hGet w a).ptr).2).getD i [] ≠ []
      rw [he, getD_append_left _ h1.1]
      exact h1.2

/-- A successful splice produces a non-empty sequence. -/
theorem insertAfterList_ne_nil {pk : K} (k : K) (v : V) {l : List (K × V)}
    (hpk : containsKey pk l = true) : insertAfterList pk k v l ≠ [] := by
  obtain ⟨l1, vp, l2, _, _, hins⟩ := insertAfterList_split pk k v l hpk
  rw [hins]
  simp

/-! ### Success-path descriptions of the handle operations -/

theorem hInsertFront_ok (w : World K V) (a : Nat) (k : K) (v : V)
    (hInv : InvB w = true) (ha : a < w.handles.length)
    (hk : containsKey k (obs w a) = false) :
    (hInsertFront w a k v).2 = none ∧
    obs (hInsertFront w a k v).1 a = (k, v) :: obs w a ∧
    InvB (hInsertFront w a k v).1 = true ∧
    a < (hInsertFront w a k v).1.handles.length := by
  rw [hInsertFront_eq]
  rcases hd : dInsertFront k v (obs w a) with e | c
  · rw [dInsertFront] at hd
    simp [hk] at hd
  · obtain ⟨_, hc⟩ := dInsertFront_ok hd
    simp only [hd]
    subst hc
    exact ⟨trivial, obs_commit w a hInv ha _ false,
      invB_commit a hInv (by simp) false, by simpa using ha⟩

theorem hInsertAfter_ok (w : World K V) (a : Nat) (pk k : K) (v : V)
    (hInv : InvB w = true) (hok : (hInsertAfter w a pk k v).2 = none) :
    obs (hInsertAfter w a pk k v).1 a = insertAfterList pk k v (obs w a) ∧
    containsKey k (obs w a) = false ∧ containsKey pk (obs w a) = true ∧
    InvB (hInsertAfter w a pk k v).1 = true ∧
    a < (hInsertAfter w a pk k v).1.handles.length := by
  match hp : (hGet w a).ptr with
  | none =>
    rw [hInsertAfter] at hok
    simp only [hp] at hok
    exact Option.noConfusion hok
  | some i =>
    have ha := lt_handles_of_ptr hp
    rw [hInsertAfter_eq w a pk k v hp] at hok ⊢
    rcases hd : dInsertAfter pk k v (obs w a) with e | c
    · simp only [hd] at hok
      exact Option.noConfusion hok
    · obtain ⟨hk, hpk, hc⟩ := dInsertAfter_ok hd
      simp only [hd]
      refine ⟨?_, hk, hpk, ?_, ?_⟩
      · rw [obs_commit w a hInv ha c false, hc]
      · exact invB_commit a hInv (hc ▸ insertAfterList_ne_nil k v hpk) false
      · simpa using ha

theorem hRemoveKey_ok (w1 : World K V) (a : Nat) (k : K)
    (hInv1 : InvB w1 = true) (ha1 : a < w1.handles.length)
    (hk : containsKey k (obs w1 a) = true) :
    (hRemoveKey w1 a k).2 = none ∧
    obs (hRemoveKey w1 a k).1 a = removeKeyList k (obs w1 a) := by
  have hne : obs w1 a ≠ [] := by
    intro h
    rw [h] at hk
    simp [containsKey] at hk
  match hp : (hGet w1 a).ptr with
  | none =>
    refine absurd ?_ hne
    rw [obs, hp]
  | some i =>
    rw [hRemoveKey_eq w1 a k hp]
    rcases hd : dRemoveKey k (obs w1 a) with e | c
    · rw [dRemoveKey] at hd
      simp [hk] at hd
    · obtain ⟨_, hc⟩ := dRemoveKey_ok hd
      simp only [hd]
      exact ⟨trivial, by rw [obs_commit_remove w1 a hInv1 ha1 c, hc]⟩

theorem setValList_length (k : K) (v : V) :
    ∀ l : List (K × V), (setValList k v l).length = l.length
  | [] => rfl
  | e :: t => by
    by_cases he : e.1 = k <;>
      simp [setValList, he, setValList_length k v t]

theorem dRead_ok_ne_nil {k : K} {l : List (K × V)} {u : V}
    (h : dRead k l = .ok u) : l ≠ [] := by
  intro hl
  subst hl
  rw [dRead, lookupVal] at h
  exact Except.noConfusion h

/-- Replacing the handle list by one more handle that respects a
heap extension preserves the invariant. -/
theorem invB_handles_append {w : World K V} (hInv : InvB w = true)
    {heap2 : List (List (K × V))}
    (hlen : w.heap.length ≤ heap2.length)
    (hagree : ∀ i, i < w.heap.length → heap2.getD i [] = w.heap.getD i [])
    {x : Handle}
    (hx : ∀ i, x.ptr = some i → i < heap2.length ∧ heap2.getD i [] ≠ []) :
    InvB (⟨heap2, w.handles ++ [x]⟩ : World K V) = true := by
  refine invB_of_spec ?_
  intro b i hp
  rcases Nat.lt_trichotomy b w.handles.length with hb | hb | hb
  · have hh : hGet (⟨heap2, w.handles ++ [x]⟩ : World K V) b = hGet w b := by
      rw [hGet, hGet]
      exact getD_append_left _ hb _
    rw [hh] at hp
    have h1 := invB_spec hInv b hp
    refine ⟨?_, ?_⟩
    · show i < heap2.length
      omega
    · show heap2.getD i [] ≠ []
      rw [hagree i h1.1]
      exact h1.2
  · have hh : hGet (⟨heap2, w.handles ++ [x]⟩ : World K V) b = x := by
      rw [hGet, hb]
      exact getD_append_length _ _ _
    rw [hh] at hp
    exact hx i hp
  · have hh : (hGet (⟨heap2, w.handles ++ [x]⟩ : World K V) b).ptr = none := by
      rw [hGet, List.getD_eq_getElem?_getD]
      rw [List.getElem?_eq_none (by simp; omega)]
      rfl
    rw [hh] at hp
    exact Option.noConfusion hp

/-- Overwriting one handle with one that respects a heap extension
preserves the invariant. -/
theorem invB_handles_set {w : World K V} (hInv : InvB w = true)
    {heap2 : List (List (K × V))}
    (hlen : w.heap.length ≤ heap2.length)
    (hagree : ∀ i, i < w.heap.length → heap2.getD i [] = w.heap.getD i [])
    (dst : Nat) {x : Handle}
    (hx : ∀ i, x.ptr = some i → i < heap2.length ∧ heap2.getD i [] ≠ []) :
    InvB (⟨heap2, w.handles.set dst x⟩ : World K V) = true := by
  refine invB_of_spec ?_
  intro b i hp
  by_cases hbd : b = dst
  · subst hbd
    by_cases hb : b < w.handles.length
    · have hh : hGet (⟨heap2, w.handles.set b x⟩ : World K V) b = x := by
        rw [hGet]
        exact getD_set_self (by simpa using hb) _ _
      rw [hh] at hp
      exact hx i hp
    · have hh : (hGet (⟨heap2, w.handles.set b x⟩ : World K V) b).ptr = none := by
        rw [hGet, List.getD_eq_getElem?_getD]
        rw [List.getElem?_eq_none (by simpa using Nat.le_of_not_lt hb)]
        rfl
      rw [hh] at hp
      exact Option.noConfusion hp
  · have hh : hGet (⟨heap2, w.handles.set dst x⟩ : World K V) b = hGet w b := by
      rw [hGet, hGet]
      exact getD_set_ne (Ne.symm hbd) _ _ _
    rw [hh] at hp
    have h1 := invB_spec hInv b hp
    refine ⟨?_, ?_⟩
    · show i < heap2.length
      omega
    · show heap2.getD i [] ≠ []
      rw [hagree i h1.1]
      exact h1.2

/-- A write through any reference preserves the invariant: it replaces one
value in place and never changes the length of any instance. -/
theorem invB_writeRef {w : World K V} (r : Ref K) (v : V)
    (hInv : InvB w = true) : InvB (writeRef w r v) = true := by
  refine invB_of_spec ?_
  intro b i hp
  have hpw : (hGet w b).ptr = some i := hp
  have h1 := invB_spec hInv b hpw
  refine ⟨by simpa [writeRef] using h1.1, ?_⟩
  show heapAt (writeRef w r v) i ≠ []
  by_cases hir : r.id = i
  · subst hir
    rw [writeRef, heapAt]
    show ((w.heap.set r.id (setValList r.key v (heapAt w r.id))).getD r.id []) ≠ []
    rw [getD_set_self h1.1]
    intro hcon
    refine h1.2 ?_
    have := setValList_length r.key v (heapAt w r.id)
    rw [hcon] at this
    rw [heapAt]
    exact List.length_eq_zero.mp this.symm
  · rw [writeRef, heapAt]
    show ((w.heap.set r.id (setValList r.key v (heapAt w r.id))).getD i []) ≠ []
    rw [getD_set_ne hir]
    exact h1.2

theorem hGet_commit (w : World K V) (a : Nat) (ha : a < w.handles.length)
    (x : Handle) (heap2 : List (List (K × V))) :
    hGet (⟨heap2, w.handles.set a x⟩ : World K V) a = x := by
  rw [hGet]
  exact getD_set_self (by simpa using ha) _ _

/-! ### Invariant preservation, operation by operation -/

theorem invB_hInsertFront (w : World K V) (a : Nat) (k : K) (v : V)
    (hInv : InvB w = true) : InvB (hInsertFront w a k v).1 = true := by
  rw [hInsertFront_eq]
  rcases hd : dInsertFront k v (obs w a) with e | c
  · exact invB_err a hInv
  · obtain ⟨_, hc⟩ := dInsertFront_ok hd
    subst hc
    exact invB_commit a hInv (by simp) false

theorem invB_hInsertAfter (w : World K V) (a : Nat) (pk k : K) (v : V)
    (hInv : InvB w = true) : InvB (hInsertAfter w a pk k v).1 = true := by
  match hp : (hGet w a).ptr with
  | none =>
    rw [hInsertAfter_none pk k v hp]
    exact hInv
  | some i =>
    rw [hInsertAfter_eq w a pk k v hp]
    rcases hd : dInsertAfter pk k v (obs w a) with e | c
    · exact invB_err a hInv
    · obtain ⟨hk, hpk, hc⟩ := dInsertAfter_ok hd
      exact invB_commit a hInv (hc ▸ insertAfterList_ne_nil k v hpk) false

theorem invB_hRemoveFront (w : World K V) (a : Nat)
    (hInv : InvB w = true) : InvB (hRemoveFront w a).1 = true := by
  match hp : (hGet w a).ptr with
  | none =>
    rw [hRemoveFront_none hp]
    exact hInv
  | some i =>
    rw [hRemoveFront_eq w a hp]
    rcases hd : dRemoveFront (obs w a) with e | c
    · exact invB_err a hInv
    · exact invB_commit_remove a hInv c

theorem invB_hRemoveKey (w : World K V) (a : Nat) (k : K)
    (hInv : InvB w = true) : InvB (hRemoveKey w a k).1 = true := by
  match hp : (hGet w a).ptr with
  | none =>
    rw [hRemoveKey_none k hp]
    exact hInv
  | some i =>
    rw [hRemoveKey_eq w a k hp]
    rcases hd : dRemoveKey k (obs w a) with e | c
    · exact invB_err a hInv
    · exact invB_commit_remove a hInv c

theorem invB_hRead (w : World K V) (a : Nat) (k : K)
    (hInv : InvB w = true) : InvB (hRead w a k).1 = true := by
  match hp : (hGet w a).ptr with
  | none =>
    rw [hRead_none k hp]
    exact hInv
  | some i =>
    rw [hRead_eq w a k hp]
    rcases hd : dRead k (obs w a) with e | u
    · exact invB_err a hInv
    · refine invB_read a hInv ?_ true
      exact fun hobs => dRead_ok_ne_nil hd hobs

theorem invB_hClear (w : World K V) (a : Nat)
    (hInv : InvB w = true) : InvB (hClear w a) = true := by
  rw [hClear]
  refine invB_handles_set hInv (Nat.le_refl _) (fun i _ => rfl) a ?_
  intro i hp
  exact Option.noConfusion hp

theorem invB_copyCon {w : World K V} {src : Nat} {w' : World K V}
    (hInv : InvB w = true) (hc : copyCon w src = some w') :
    InvB w' = true := by
  rw [copyCon] at hc
  by_cases hr : (hGet w src).read_called = true
  · match hp : (hGet w src).ptr with
    | none =>
      simp only [hr, hp, if_true] at hc
      exact Option.noConfusion hc
    | some i =>
      simp only [hr, hp, if_true] at hc
      have h1 := invB_spec hInv src hp
      have hw' := (Option.some_injective _ hc).symm
      subst hw'
      refine invB_handles_append hInv (by simp) ?_ ?_
      · intro j hj
        exact getD_append_left _ hj _
      · intro j hj
        have hjl : j = w.heap.length := by simpa using hj.symm
        subst hjl
        refine ⟨by simp, ?_⟩
        rw [getD_append_length]
        exact h1.2
  · rw [Bool.not_eq_true] at hr
    simp only [hr, Bool.false_eq_true, if_false] at hc
    have hw' := (Option.some_injective _ hc).symm
    subst hw'
    refine invB_handles_append hInv (Nat.le_refl _) (fun i _ => rfl) ?_
    intro j hj
    exact invB_spec hInv src hj

theorem invB_copyAssign (w : World K V) (dst src : Nat)
    (hInv : InvB w = true) : InvB (copyAssign w dst src) = true := by
  rw [copyAssign]
  match hp : (hGet w src).ptr with
  | none =>
    refine invB_handles_set hInv (Nat.le_refl _) (fun i _ => rfl) dst ?_
    intro i hi
    exact Option.noConfusion hi
  | some i =>
    have h1 := invB_spec hInv src hp
    by_cases hr : (hGet w src).read_called = true
    · simp only [hr, if_true]
      refine invB_handles_set hInv (by simp) ?_ dst ?_
      · intro j hj
        exact getD_append_left _ hj _
      · intro j hj
        have hjl : j = w.heap.length := by simpa using hj.symm
        subst hjl
        refine ⟨by simp, ?_⟩
        rw [getD_append_length]
        exact h1.2
    · rw [Bool.not_eq_true] at hr
      simp only [hr, Bool.false_eq_true, if_false]
      refine invB_handles_set hInv (Nat.le_refl _) (fun j _ => rfl) dst ?_
      intro j hj
      have hji : j = i := by simpa using hj.symm
      subst hji
      exact h1

theorem invB_moveCon (w : World K V) (src : Nat)
    (hInv : InvB w = true) : InvB (moveCon w src) = true := by
  rw [moveCon]
  have h1 : InvB (⟨w.heap,
      w.handles.set src ⟨none, (hGet w src).read_called⟩⟩ : World K V) = true := by
    refine invB_handles_set hInv (Nat.le_refl _) (fun i _ => rfl) src ?_
    intro i hi
    exact Option.noConfusion hi
  refine invB_handles_append h1 (Nat.le_refl _) (fun i _ => rfl) ?_
  intro i hi
  exact invB_spec hInv src hi

theorem invB_moveAssign (w : World K V) (dst src : Nat)
    (hInv : InvB w = true) : InvB (moveAssign w dst src) = true := by
  rw [moveAssign]
  have h1 : InvB (⟨w.heap,
      w.handles.set src ⟨none, (hGet w src).read_called⟩⟩ : World K V) = true := by
    refine invB_handles_set hInv (Nat.le_refl _) (fun i _ => rfl) src ?_
    intro i hi
    exact Option.noConfusion hi
  refine invB_handles_set h1 (Nat.le_refl _) (fun i _ => rfl) dst ?_
  intro i hi
  exact invB_spec hInv src hi

/-- C4: starting from an empty container, `insert_front("b",2)`;
`insert_front("a",1)`; `insert_after("a","c",3)` all succeed and yield
iteration order a(1), c(3), b(2); `read_const("c")` returns 3; `remove("a")`
yields order c(3), b(2) with size 2; copying the container at that point and
mutating the copy's "c" to 30 (via a mutable `read`) leaves the original's
"c" at 3. -/
theorem scenario_matches_spec :
    (hInsertFront scen0 0 "b" 2).2 = none ∧
    (hInsertFront scen1 0 "a" 1).2 = none ∧
    (hInsertAfter scen2 0 "a" "c" 3).2 = none ∧
    obs scen3 0 = [("a", 1), ("c", 3), ("b", 2)] ∧
    hReadConst scen3 0 "c" = .ok 3 ∧
    (hRemoveKey scen3 0 "a").2 = none ∧
    obs scen4 0 = [("c", 3), ("b", 2)] ∧
    hSize scen4 0 = 2 ∧
    (copyCon scen4 0).isSome = true ∧
    (hRead scen5 1 "c").2.1 = none ∧
    hReadConst scen7 1 "c" = .ok 30 ∧
    hReadConst scen7 0 "c" = .ok 3 := by decide

/-- C1 (amended): for any two distinct handles `a` and `b` (in particular a
handle and a copy of it, however the copy was produced), a mutation applied
through `b` — `insert_front`, `insert_after`, `remove()`, `remove(k)`, a
mutable `read`, or a write through the reference that mutable `read` just
returned, performed before any further operation — never changes what `a`
observes, regardless of whether storage was physically shared or cloned:
`a`'s instance is never the mutation's resolved target.  The original
claim's unrestricted reference-write clause is false of the code (see
`stale_reference_write_changes_copy`): a reference retained across a later
mutation of its own handle survives the flag reset and can come to alias a
subsequently made copy's storage. -/
theorem copy_mutation_invisible (w : World K V) (a b : Nat) (hab : a ≠ b)
    (hInv : InvB w = true) (pk k : K) (v : V) :
    obs (hInsertFront w b k v).1 a = obs w a ∧
    obs (hInsertAfter w b pk k v).1 a = obs w a ∧
    obs (hRemoveFront w b).1 a = obs w a ∧
    obs (hRemoveKey w b k).1 a = obs w a ∧
    obs (hRead w b k).1 a = obs w a ∧
    (∀ r, (hRead w b k).2.2 = some r →
      (hGet (hRead w b k).1 a).ptr ≠ some r.id ∧
      obs (writeRef (hRead w b k).1 r v) a = obs w a) := by
  refine ⟨?_, ?_, ?_, ?_, ?_, ?_⟩
  · rw [hInsertFront_eq]
    rcases hd : dInsertFront k v (obs w b) with e | c
    · simp only [hd]
      exact obs_frame_err b a hInv
    · simp only [hd]
      exact obs_frame_set hab hInv c _
  · match hp : (hGet w b).ptr with
    | none => simp only [hInsertAfter, hp]
    | some i =>
      rw [hInsertAfter_eq w b pk k v hp]
      rcases hd : dInsertAfter pk k v (obs w b) with e | c
      · simp only [hd]
        exact obs_frame_err b a hInv
      · simp only [hd]
        exact obs_frame_set hab hInv c _
  · match hp : (hGet w b).ptr with
    | none => simp only [hRemoveFront, hp]
    | some i =>
      rw [hRemoveFront_eq w b hp]
      rcases hd : dRemoveFront (obs w b) with e | c
      · simp only [hd]
        exact obs_frame_err b a hInv
      · simp only [hd]
        exact obs_frame_set hab hInv c _
  · match hp : (hGet w b).ptr with
    | none => simp only [hRemoveKey, hp]
    | some i =>
      rw [hRemoveKey_eq w b k hp]
      rcases hd : dRemoveKey k (obs w b) with e | c
      · simp only [hd]
        exact obs_frame_err b a hInv
      · simp only [hd]
        exact obs_frame_set hab hInv c _
  · match hp : (hGet w b).ptr with
    | none => simp only [hRead, hp]
    | some i =>
      rw [hRead_eq w b k hp]
      rcases hd : dRead k (obs w b) with e | u
      · simp only [hd]
        exact obs_frame_err b a hInv
      · simp only [hd]
        exact obs_frame_ext hab hInv _
  · intro r hr
    match hp : (hGet w b).ptr with
    | none =>
      rw [hRead] at hr
      simp only [hp] at hr
      exact Option.noConfusion hr
    | some i =>
      rw [hRead_eq w b k hp] at hr ⊢
      rcases hd : dRead k (obs w b) with e | u
      · simp only [hd] at hr
        exact Option.noConfusion hr
      · simp only [hd] at hr ⊢
        have hrr : r = ⟨(resolveTarget w (hGet w b).ptr).1, k⟩ :=
          (Option.some_injective _ hr).symm
        have hga : hGet (⟨(resolveTarget w (hGet w b).ptr).2,
            w.handles.set b ⟨some (resolveTarget w (hGet w b).ptr).1, true⟩⟩ : World K V) a
            = hGet w a := by
          simp only [hGet]
          exact getD_set_ne (Ne.symm hab) _ _ _
        have hne : (hGet (⟨(resolveTarget w (hGet w b).ptr).2,
            w.handles.set b ⟨some (resolveTarget w (hGet w b).ptr).1, true⟩⟩ : World K V) a).ptr
            ≠ some r.id := by
          rw [hga, hrr]
          exact target_not_aliased hab hInv
        refine ⟨hne, ?_⟩
        rw [obs_writeRef_ne hne v]
        exact obs_frame_ext hab hInv _

/-- Closed instantiation of `copy_mutation_invisible` on the shared
two-handle world, discharging its hypotheses. -/
theorem copy_mutation_invisible_witness :
    (0 : Nat) ≠ 1 ∧ InvB wShared = true ∧
    (obs (hInsertFront wShared 1 0 50).1 0 = obs wShared 0 ∧
     obs (hInsertAfter wShared 1 0 0 50).1 0 = obs wShared 0 ∧
     obs (hRemoveFront wShared 1).1 0 = obs wShared 0 ∧
     obs (hRemoveKey wShared 1 0).1 0 = obs wShared 0 ∧
     obs (hRead wShared 1 0).1 0 = obs wShared 0 ∧
     (∀ r, (hRead wShared 1 0).2.2 = some r →
       (hGet (hRead wShared 1 0).1 0).ptr ≠ some r.id ∧
       obs (writeRef (hRead wShared 1 0).1 r 50) 0 = obs wShared 0)) :=
  ⟨by decide, by decide,
    copy_mutation_invisible wShared 0 1 (by decide) (by decide) 0 0 50⟩

/-- C1 counterexample: the original claim — a write through a reference
returned by mutable `read` never changes what a copy observes — is false of
the code.  Handle 0 uniquely owns [(0, 10)] and calls mutable `read 0`: no
clone, the returned reference aliases its node, `read_called` is set.  A
subsequent `insert_front 1 11` mutates in place and resets `read_called`
(src/binder.h:76) while the reference stays valid.  Copy-constructing
handle 1 now shares the storage (src/binder.h:51, flag false).  Writing 99
through the retained reference then changes what the copy observes: its
entry for key 0 goes from 10 to 99. -/
theorem stale_reference_write_changes_copy :
    (hRead wLeak0 0 0).2.1 = none ∧
    (hRead wLeak0 0 0).2.2 = some leakRef ∧
    (hGet wLeak1 0).read_called = true ∧
    (hInsertFront wLeak1 0 1 11).2 = none ∧
    (hGet wLeak2 0).read_called = false ∧
    (copyCon wLeak2 0).isSome = true ∧
    (hGet wLeak3 1).ptr = (hGet wLeak3 0).ptr ∧
    (hGet wLeak3 1).ptr = some leakRef.id ∧
    obs wLeak3 1 = [(1, 11), (0, 10)] ∧
    obs wLeak4 1 = [(1, 11), (0, 99)] ∧
    obs wLeak4 1 ≠ obs wLeak3 1 := by decide

/-- C10: when both preconditions of `insert_after` are violated at once on a
non-empty container — the new key `k` already present and the anchor `pk`
absent — the reported error is `DuplicateKey`, because
`binder_data::insert_after` performs the duplicate-key check before the
anchor-key check. -/
theorem insert_after_duplicate_checked_first (w : World K V) (a : Nat)
    (pk k : K) (v : V) (hne : (hGet w a).ptr ≠ none)
    (hdup : containsKey k (obs w a) = true)
    (hanch : containsKey pk (obs w a) = false) :
    (hInsertAfter w a pk k v).2 = some .DuplicateKey := by
  match hp : (hGet w a).ptr with
  | none => exact absurd hp hne
  | some i =>
    rw [hInsertAfter_eq w a pk k v hp]
    simp [dInsertAfter, hdup]

/-- Closed instantiation of `insert_after_duplicate_checked_first`: key 1 is
present, anchor 9 is absent, and the failure is `DuplicateKey`. -/
theorem insert_after_duplicate_checked_first_witness :
    (hGet wOwn 0).ptr ≠ none ∧
    containsKey 1 (obs wOwn 0) = true ∧
    containsKey 9 (obs wOwn 0) = false ∧
    (hInsertAfter wOwn 0 9 1 99).2 = some .DuplicateKey :=
  ⟨by decide, by decide, by decide,
    insert_after_duplicate_checked_first wOwn 0 9 1 99
      (by decide) (by decide) (by decide)⟩

/-- C7 counterexample: on an empty container, `insert_after` does not fail
through the anchor lookup — `binder::insert_after` (src/binder.h:81-82)
raises the distinct `EmptyContainer` error itself, before any delegation,
so the failure is not `KeyNotFound`. -/
theorem insert_after_on_empty_is_EmptyContainer :
    (hInsertAfter (⟨[], [⟨none, false⟩]⟩ : World Nat Nat) 0 1 2 3).2
      = some .EmptyContainer ∧
    (hInsertAfter (⟨[], [⟨none, false⟩]⟩ : World Nat Nat) 0 1 2 3).2
      ≠ some .KeyNotFound := by decide

/-- C7 (amended): `insert_after(pk, k, v)` fails with `DuplicateKey` when
`k` is present and with `KeyNotFound` when `k` is absent but the anchor `pk`
is absent; however a non-empty container is a distinct, explicit
precondition: on an empty handle the failure is the handle's own
`EmptyContainer` error, raised before any anchor lookup.  When `k` is absent
and `pk` present the call succeeds. -/
theorem insert_after_error_cases (w : World K V) (a : Nat) (pk k : K) (v : V) :
    ((hGet w a).ptr = none →
      (hInsertAfter w a pk k v).2 = some .EmptyContainer) ∧
    ((hGet w a).ptr ≠ none → containsKey k (obs w a) = true →
      (hInsertAfter w a pk k v).2 = some .DuplicateKey) ∧
    ((hGet w a).ptr ≠ none → containsKey k (obs w a) = false →
      containsKey pk (obs w a) = false →
      (hInsertAfter w a pk k v).2 = some .KeyNotFound) ∧
    ((hGet w a).ptr ≠ none → containsKey k (obs w a) = false →
      containsKey pk (obs w a) = true →
      (hInsertAfter w a pk k v).2 = none) := by
  refine ⟨?_, ?_, ?_, ?_⟩
  · intro hp
    simp only [hInsertAfter, hp]
  · intro hne hdup
    match hp : (hGet w a).ptr with
    | none => exact absurd hp hne
    | some i =>
      rw [hInsertAfter_eq w a pk k v hp]
      simp [dInsertAfter, hdup]
  · intro hne hdup hanch
    match hp : (hGet w a).ptr with
    | none => exact absurd hp hne
    | some i =>
      rw [hInsertAfter_eq w a pk k v hp]
      simp [dInsertAfter, hdup, hanch]
  · intro hne hdup hanch
    match hp : (hGet w a).ptr with
    | none => exact absurd hp hne
    | some i =>
      rw [hInsertAfter_eq w a pk k v hp]
      simp [dInsertAfter, hdup, hanch]

/-- Closed instantiation of `insert_after_error_cases` at the empty world:
the failure is the distinct `EmptyContainer` error. -/
theorem insert_after_error_cases_witness :
    (hInsertAfter (⟨[], [⟨none, false⟩]⟩ : World Nat Nat) 0 1 2 3).2
      = some .EmptyContainer :=
  (insert_after_error_cases (⟨[], [⟨none, false⟩]⟩ : World Nat Nat) 0 1 2 3).1
    (by decide)

/-- C5: whenever `insert_after(pk, k, v)` succeeds (anchor present, new key
absent), the observed sequence splits at the anchor's current position: the
new entry lands immediately after the anchor's node and the relative order
of all other entries is preserved.  The decomposition depends only on the
current observation, so it holds regardless of how prior insertions built
the sequence. -/
theorem insert_after_placement (w : World K V) (a : Nat) (pk k : K) (v : V)
    (hInv : InvB w = true) (hok : (hInsertAfter w a pk k v).2 = none) :
    ∃ l1 vp l2, obs w a = l1 ++ (pk, vp) :: l2 ∧ containsKey pk l1 = false ∧
      obs (hInsertAfter w a pk k v).1 a = l1 ++ (pk, vp) :: (k, v) :: l2 := by
  match hp : (hGet w a).ptr with
  | none =>
    rw [hInsertAfter] at hok
    simp only [hp] at hok
    exact Option.noConfusion hok
  | some i =>
    have ha : a < w.handles.length := lt_handles_of_ptr hp
    rw [hInsertAfter_eq w a pk k v hp] at hok ⊢
    rcases hd : dInsertAfter pk k v (obs w a) with e | c
    · simp only [hd] at hok
      exact Option.noConfusion hok
    · obtain ⟨hk, hpk, hc⟩ := dInsertAfter_ok hd
      obtain ⟨l1, vp, l2, hl, hnl1, hins⟩ := insertAfterList_split pk k v (obs w a) hpk
      refine ⟨l1, vp, l2, hl, hnl1, ?_⟩
      simp only [hd]
      rw [obs_commit w a hInv ha c false, hc, hins]

/-- Closed instantiation of `insert_after_placement`: inserting 5 after
anchor 1 in [(1, 10), (2, 20)] splits the sequence as required. -/
theorem insert_after_placement_witness :
    InvB wOwn = true ∧ (hInsertAfter wOwn 0 1 5 55).2 = none ∧
    (∃ l1 vp l2, obs wOwn 0 = l1 ++ (1, vp) :: l2 ∧ containsKey 1 l1 = false ∧
      obs (hInsertAfter wOwn 0 1 5 55).1 0 = l1 ++ (1, vp) :: (5, 55) :: l2) :=
  ⟨by decide, by decide,
    insert_after_placement wOwn 0 1 5 55 (by decide) (by decide)⟩

/-- C9: inserting an absent key `k` (by `insert_front`, or by `insert_after`
whenever it succeeds, i.e. with a valid anchor) and then immediately
removing it with `remove(k)` restores the observed sequence — hence both the
size and the iteration order — to the pre-insert state. -/
theorem insert_remove_roundtrip (w : World K V) (a : Nat) (pk k : K) (v : V)
    (hInv : InvB w = true) (ha : a < w.handles.length)
    (hk : containsKey k (obs w a) = false) :
    ((hInsertFront w a k v).2 = none ∧
     (hRemoveKey (hInsertFront w a k v).1 a k).2 = none ∧
     obs (hRemoveKey (hInsertFront w a k v).1 a k).1 a = obs w a ∧
     hSize (hRemoveKey (hInsertFront w a k v).1 a k).1 a = hSize w a) ∧
    ((hInsertAfter w a pk k v).2 = none →
     ((hRemoveKey (hInsertAfter w a pk k v).1 a k).2 = none ∧
      obs (hRemoveKey (hInsertAfter w a pk k v).1 a k).1 a = obs w a ∧
      hSize (hRemoveKey (hInsertAfter w a pk k v).1 a k).1 a = hSize w a)) := by
  constructor
  · obtain ⟨he1, hobs1, hinv1, ha1⟩ := hInsertFront_ok w a k v hInv ha hk
    have hk1 : containsKey k (obs (hInsertFront w a k v).1 a) = true := by
      rw [hobs1]
      simp [containsKey_cons]
    obtain ⟨he2, hobs2⟩ := hRemoveKey_ok _ a k hinv1 ha1 hk1
    have hfin : obs (hRemoveKey (hInsertFront w a k v).1 a k).1 a = obs w a := by
      rw [hobs2, hobs1, removeKeyList_cons_self]
    exact ⟨he1, he2, hfin, by rw [hSize, hfin, hSize]⟩
  · intro hok
    obtain ⟨hobs1, hk0, hpk0, hinv1, ha1⟩ := hInsertAfter_ok w a pk k v hInv hok
    have hk1 : containsKey k (obs (hInsertAfter w a pk k v).1 a) = true := by
      rw [hobs1]
      exact containsKey_insertAfterList pk k v _ hpk0
    obtain ⟨he2, hobs2⟩ := hRemoveKey_ok _ a k hinv1 ha1 hk1
    have hfin : obs (hRemoveKey (hInsertAfter w a pk k v).1 a k).1 a = obs w a := by
      rw [hobs2, hobs1, removeKeyList_insertAfterList pk k v _ hk0]
    exact ⟨he2, hfin, by rw [hSize, hfin, hSize]⟩

/-- Closed instantiation of `insert_remove_roundtrip`: inserting key 5 into
[(1, 10), (2, 20)] (at the front, or after anchor 1) and removing it by key
restores the sequence. -/
theorem insert_remove_roundtrip_witness :
    InvB wOwn = true ∧ 0 < wOwn.handles.length ∧
    containsKey 5 (obs wOwn 0) = false ∧
    (((hInsertFront wOwn 0 5 55).2 = none ∧
      (hRemoveKey (hInsertFront wOwn 0 5 55).1 0 5).2 = none ∧
      obs (hRemoveKey (hInsertFront wOwn 0 5 55).1 0 5).1 0 = obs wOwn 0 ∧
      hSize (hRemoveKey (hInsertFront wOwn 0 5 55).1 0 5).1 0 = hSize wOwn 0) ∧
     ((hInsertAfter wOwn 0 1 5 55).2 = none →
      ((hRemoveKey (hInsertAfter wOwn 0 1 5 55).1 0 5).2 = none ∧
       obs (hRemoveKey (hInsertAfter wOwn 0 1 5 55).1 0 5).1 0 = obs wOwn 0 ∧
       hSize (hRemoveKey (hInsertAfter wOwn 0 1 5 55).1 0 5).1 0 = hSize wOwn 0))) :=
  ⟨by decide, by decide, by decide,
    insert_remove_roundtrip wOwn 0 1 5 55 (by decide) (by decide) (by decide)⟩

/-- C3: every failing operation propagates its error to the caller
unchanged — it is the delegated storage-engine error computed on the
handle's observation, or the handle's own `EmptyContainer` raised before
delegation — and leaves the visible state unchanged: the handle list (hence
every pointer and flag) is untouched, and every handle's observation (size,
iteration order, values) is identical to before the call; the internally
attempted clone is unreferenced garbage with no observable effect. -/
theorem failed_op_leaves_state_unchanged (w : World K V) (a : Nat)
    (pk k : K) (v : V) (hInv : InvB w = true) :
    (∀ e, (hInsertFront w a k v).2 = some e →
      dInsertFront k v (obs w a) = .error e ∧
      (hInsertFront w a k v).1.handles = w.handles ∧
      ∀ c, obs (hInsertFront w a k v).1 c = obs w c) ∧
    (∀ e, (hInsertAfter w a pk k v).2 = some e →
      (((hGet w a).ptr = none ∧ e = .EmptyContainer) ∨
        dInsertAfter pk k v (obs w a) = .error e) ∧
      (hInsertAfter w a pk k v).1.handles = w.handles ∧
      ∀ c, obs (hInsertAfter w a pk k v).1 c = obs w c) ∧
    (∀ e, (hRemoveFront w a).2 = some e →
      (((hGet w a).ptr = none ∧ e = .EmptyContainer) ∨
        dRemoveFront (obs w a) = .error e) ∧
      (hRemoveFront w a).1.handles = w.handles ∧
      ∀ c, obs (hRemoveFront w a).1 c = obs w c) ∧
    (∀ e, (hRemoveKey w a k).2 = some e →
      (((hGet w a).ptr = none ∧ e = .EmptyContainer) ∨
        dRemoveKey k (obs w a) = .error e) ∧
      (hRemoveKey w a k).1.handles = w.handles ∧
      ∀ c, obs (hRemoveKey w a k).1 c = obs w c) ∧
    (∀ e, (hRead w a k).2.1 = some e →
      (((hGet w a).ptr = none ∧ e = .EmptyContainer) ∨
        dRead k (obs w a) = .error e) ∧
      (hRead w a k).1.handles = w.handles ∧
      ∀ c, obs (hRead w a k).1 c = obs w c) := by
  refine ⟨?_, ?_, ?_, ?_, ?_⟩
  · intro e he
    rcases hd : dInsertFront k v (obs w a) with e' | c
    · have hres : hInsertFront w a k v =
          (⟨(resolveTarget w (hGet w a).ptr).2, w.handles⟩, some e') := by
        rw [hInsertFront_eq, hd]
      rw [hres] at he
      have hee : e' = e := by simpa using he
      subst hee
      refine ⟨rfl, by rw [hres], fun c2 => ?_⟩
      rw [hres]
      exact obs_frame_err a c2 hInv
    · have h2 : (hInsertFront w a k v).2 = none := by
        rw [hInsertFront_eq, hd]
      rw [h2] at he
      exact Option.noConfusion he
  · intro e he
    match hp : (hGet w a).ptr with
    | none =>
      have hres := hInsertAfter_none pk k v hp
      rw [hres] at he
      have hee : BErr.EmptyContainer = e := by simpa using he
      exact ⟨Or.inl ⟨rfl, hee.symm⟩, by rw [hres], fun c2 => by rw [hres]⟩
    | some i =>
      rcases hd : dInsertAfter pk k v (obs w a) with e' | c
      · have hres : hInsertAfter w a pk k v =
            (⟨(resolveTarget w (hGet w a).ptr).2, w.handles⟩, some e') := by
          rw [hInsertAfter_eq w a pk k v hp, hd]
        rw [hres] at he
        have hee : e' = e := by simpa using he
        subst hee
        refine ⟨Or.inr rfl, by rw [hres], fun c2 => ?_⟩
        rw [hres]
        exact obs_frame_err a c2 hInv
      · have h2 : (hInsertAfter w a pk k v).2 = none := by
          rw [hInsertAfter_eq w a pk k v hp, hd]
        rw [h2] at he
        exact Option.noConfusion he
  · intro e he
    match hp : (hGet w a).ptr with
    | none =>
      have hres := hRemoveFront_none hp
      rw [hres] at he
      have hee : BErr.EmptyContainer = e := by simpa using he
      exact ⟨Or.inl ⟨rfl, hee.symm⟩, by rw [hres], fun c2 => by rw [hres]⟩
    | some i =>
      rcases hd : dRemoveFront (obs w a) with e' | c
      · have hres : hRemoveFront w a =
            (⟨(resolveTarget w (hGet w a).ptr).2, w.handles⟩, some e') := by
          rw [hRemoveFront_eq w a hp, hd]
        rw [hres] at he
        have hee : e' = e := by simpa using he
        subst hee
        refine ⟨Or.inr rfl, by rw [hres], fun c2 => ?_⟩
        rw [hres]
        exact obs_frame_err a c2 hInv
      · have h2 : (hRemoveFront w a).2 = none := by
          rw [hRemoveFront_eq w a hp, hd]
        rw [h2] at he
        exact Option.noConfusion he
  · intro e he
    match hp : (hGet w a).ptr with
    | none =>
      have hres := hRemoveKey_none k hp
      rw [hres] at he
      have hee : BErr.EmptyContainer = e := by simpa using he
      exact ⟨Or.inl ⟨rfl, hee.symm⟩, by rw [hres], fun c2 => by rw [hres]⟩
    | some i =>
      rcases hd : dRemoveKey k (obs w a) with e' | c
      · have hres : hRemoveKey w a k =
            (⟨(resolveTarget w (hGet w a).ptr).2, w.handles⟩, some e') := by
          rw [hRemoveKey_eq w a k hp, hd]
        rw [hres] at he
        have hee : e' = e := by simpa using he
        subst hee
        refine ⟨Or.inr rfl, by rw [hres], fun c2 => ?_⟩
        rw [hres]
        exact obs_frame_err a c2 hInv
      · have h2 : (hRemoveKey w a k).2 = none := by
          rw [hRemoveKey_eq w a k hp, hd]
        rw [h2] at he
        exact Option.noConfusion he
  · intro e he
    match hp : (hGet w a).ptr with
    | none =>
      have hres := hRead_none k hp
      rw [hres] at he
      have hee : BErr.EmptyContainer = e := by simpa using he
      exact ⟨Or.inl ⟨rfl, hee.symm⟩, by rw [hres], fun c2 => by rw [hres]⟩
    | some i =>
      rcases hd : dRead k (obs w a) with e' | u
      · have hres : hRead w a k =
            (⟨(resolveTarget w (hGet w a).ptr).2, w.handles⟩, some e', none) := by
          rw [hRead_eq w a k hp, hd]
        rw [hres] at he
        have hee : e' = e := by simpa using he
        subst hee
        refine ⟨Or.inr rfl, by rw [hres], fun c2 => ?_⟩
        rw [hres]
        exact obs_frame_err a c2 hInv
      · have h2 : (hRead w a k).2.1 = none := by
          rw [hRead_eq w a k hp, hd]
        rw [h2] at he
        exact Option.noConfusion he

/-- Closed instantiation of `failed_op_leaves_state_unchanged`: inserting
the duplicate key 1 into [(1, 10), (2, 20)] fails with `DuplicateKey` and
observably changes nothing. -/
theorem failed_op_leaves_state_unchanged_witness :
    dInsertFront 1 99 (obs wOwn 0) = .error .DuplicateKey ∧
    (hInsertFront wOwn 0 1 99).1.handles = wOwn.handles ∧
    ∀ c, obs (hInsertFront wOwn 0 1 99).1 c = obs wOwn c :=
  (failed_op_leaves_state_unchanged wOwn 0 1 1 99 (by decide)).1
    .DuplicateKey (by decide)

/-- C2: copy-construction and copy-assignment share the source's instance
reference directly when the source's `read_called` flag is false, and
immediately deep-clone — equal content at a fresh instance id, with the
index rebuilt from the clone, so no internal reference is shared — when the
flag is true; in both cases the target's own flag ends up false and the
target observes exactly what the source observed.  `hrc` is the handle
invariant that a set flag implies a non-null pointer (it holds in every
state reachable without moving from an exposed handle; without it the
cloning copy constructor would dereference a null `data_ptr`). -/
theorem copy_shares_or_clones (w : World K V) (src dst : Nat)
    (hInv : InvB w = true)
    (hrc : (hGet w src).read_called = true → (hGet w src).ptr ≠ none)
    (hsrc : src < w.handles.length) (hdst : dst < w.handles.length) :
    (∀ w', copyCon w src = some w' →
      (hGet w' w.handles.length).read_called = false ∧
      obs w' w.handles.length = obs w src ∧
      obs w' src = obs w src ∧
      ((hGet w src).read_called = false →
        (hGet w' w.handles.length).ptr = (hGet w src).ptr) ∧
      ((hGet w src).read_called = true →
        (hGet w' w.handles.length).ptr = some w.heap.length ∧
        (hGet w' w.handles.length).ptr ≠ (hGet w src).ptr)) ∧
    (copyCon w src).isSome = true ∧
    ((hGet (copyAssign w dst src) dst).read_called = false ∧
     obs (copyAssign w dst src) dst = obs w src ∧
     ((hGet w src).read_called = false →
       (hGet (copyAssign w dst src) dst).ptr = (hGet w src).ptr) ∧
     ((hGet w src).read_called = true →
       (hGet (copyAssign w dst src) dst).ptr = some w.heap.length ∧
       (hGet (copyAssign w dst src) dst).ptr ≠ (hGet w src).ptr)) := by
  by_cases hr : (hGet w src).read_called = true
  · have hpne := hrc hr
    match hp : (hGet w src).ptr with
    | none => exact absurd hp hpne
    | some i =>
      have hilt : i < w.heap.length := (invB_spec hInv src hp).1
      have hcc : copyCon w src =
          some ⟨w.heap ++ [heapAt w i],
                w.handles ++ [⟨some w.heap.length, false⟩]⟩ := by
        rw [copyCon]
        simp only [hr, hp, if_true]
      have hca : copyAssign w dst src =
          ⟨w.heap ++ [heapAt w i],
           w.handles.set dst ⟨some w.heap.length, false⟩⟩ := by
        rw [copyAssign]
        simp only [hr, hp, if_true]
      refine ⟨?_, by rw [hcc]; rfl, ?_⟩
      · intro w' hw'
        rw [hcc] at hw'
        have hw'' := (Option.some_injective _ hw').symm
        subst hw''
        have hglen : hGet (⟨w.heap ++ [heapAt w i],
            w.handles ++ [⟨some w.heap.length, false⟩]⟩ : World K V)
            w.handles.length = ⟨some w.heap.length, false⟩ := by
          rw [hGet]
          exact getD_append_length _ _ _
        have hgsrc : hGet (⟨w.heap ++ [heapAt w i],
            w.handles ++ [⟨some w.heap.length, false⟩]⟩ : World K V) src
            = hGet w src := by
          rw [hGet, hGet]
          exact getD_append_left _ hsrc _
        refine ⟨by rw [hglen], ?_, ?_, ?_, ?_⟩
        · simp only [obs, hglen, hp]
          simp only [heapAt]
          exact getD_append_length _ _ _
        · simp only [obs, hgsrc, hp]
          simp only [heapAt]
          exact getD_append_left _ hilt _
        · intro hf
          rw [hr] at hf
          exact Bool.noConfusion hf
        · intro _
          refine ⟨by rw [hglen], ?_⟩
          rw [hglen]
          intro hcon
          have : w.heap.length = i := by simpa using hcon
          omega
      · have hgdst : hGet (⟨w.heap ++ [heapAt w i],
            w.handles.set dst ⟨some w.heap.length, false⟩⟩ : World K V) dst
            = ⟨some w.heap.length, false⟩ := by
          rw [hGet]
          exact getD_set_self (by simpa using hdst) _ _
        refine ⟨by rw [hca, hgdst], ?_, ?_, ?_⟩
        · rw [hca]
          simp only [obs, hgdst, hp]
          simp only [heapAt]
          exact getD_append_length _ _ _
        · intro hf
          rw [hr] at hf
          exact Bool.noConfusion hf
        · intro _
          refine ⟨by rw [hca, hgdst], ?_⟩
          rw [hca, hgdst]
          intro hcon
          have : w.heap.length = i := by simpa using hcon
          omega
  · have hrf : (hGet w src).read_called = false := by
      rw [Bool.not_eq_true] at hr
      exact hr
    have hcc : copyCon w src =
        some ⟨w.heap, w.handles ++ [⟨(hGet w src).ptr, false⟩]⟩ := by
      rw [copyCon]
      simp only [hrf, Bool.false_eq_true, if_false]
    have hglen : hGet (⟨w.heap,
        w.handles ++ [⟨(hGet w src).ptr, false⟩]⟩ : World K V)
        w.handles.length = ⟨(hGet w src).ptr, false⟩ := by
      rw [hGet]
      exact getD_append_length _ _ _
    have hgsrc : hGet (⟨w.heap,
        w.handles ++ [⟨(hGet w src).ptr, false⟩]⟩ : World K V) src
        = hGet w src := by
      rw [hGet, hGet]
      exact getD_append_left _ hsrc _
    refine ⟨?_, by rw [hcc]; rfl, ?_⟩
    · intro w' hw'
      rw [hcc] at hw'
      have hw'' := (Option.some_injective _ hw').symm
      subst hw''
      refine ⟨by rw [hglen], ?_, ?_, fun _ => by rw [hglen], ?_⟩
      · match hp : (hGet w src).ptr with
        | none =>
          rw [hp] at hglen
          simp only [obs, hglen, hp]
        | some i =>
          rw [hp] at hglen
          simp only [obs, hglen, hp, heapAt]
      · match hp : (hGet w src).ptr with
        | none =>
          rw [hp] at hgsrc
          simp only [obs, hgsrc, hp]
        | some i =>
          rw [hp] at hgsrc
          simp only [obs, hgsrc, hp, heapAt]
      · intro ht
        rw [hrf] at ht
        exact Bool.noConfusion ht
    · match hp : (hGet w src).ptr with
      | none =>
        have hca : copyAssign w dst src =
            ⟨w.heap, w.handles.set dst ⟨none, false⟩⟩ := by
          rw [copyAssign]
          simp only [hp]
        have hgdst : hGet (⟨w.heap,
            w.handles.set dst ⟨none, false⟩⟩ : World K V) dst
            = ⟨none, false⟩ := by
          rw [hGet]
          exact getD_set_self (by simpa using hdst) _ _
        refine ⟨by rw [hca, hgdst], ?_, fun _ => by rw [hca, hgdst], ?_⟩
        · rw [hca]
          simp only [obs, hgdst, hp]
        · intro ht
          rw [hrf] at ht
          exact Bool.noConfusion ht
      | some i =>
        have hca : copyAssign w dst src =
            ⟨w.heap, w.handles.set dst ⟨some i, false⟩⟩ := by
          rw [copyAssign]
          simp only [hp, hrf, Bool.false_eq_true, if_false]
        have hgdst : hGet (⟨w.heap,
            w.handles.set dst ⟨some i, false⟩⟩ : World K V) dst
            = ⟨some i, false⟩ := by
          rw [hGet]
          exact getD_set_self (by simpa using hdst) _ _
        refine ⟨by rw [hca, hgdst], ?_, fun _ => by rw [hca, hgdst], ?_⟩
        · rw [hca]
          simp only [obs, hgdst, hp, heapAt]
        · intro ht
          rw [hrf] at ht
          exact Bool.noConfusion ht

/-- Closed instantiation of `copy_shares_or_clones` on a source whose flag
is set: both copy paths deep-clone to the fresh id and reset the flag. -/
theorem copy_shares_or_clones_witness :
    InvB wExposed = true ∧
    ((hGet wExposed 0).read_called = true → (hGet wExposed 0).ptr ≠ none) ∧
    0 < wExposed.handles.length ∧
    ((∀ w', copyCon wExposed 0 = some w' →
       (hGet w' wExposed.handles.length).read_called = false ∧
       obs w' wExposed.handles.length = obs wExposed 0 ∧
       obs w' 0 = obs wExposed 0 ∧
       ((hGet wExposed 0).read_called = false →
         (hGet w' wExposed.handles.length).ptr = (hGet wExposed 0).ptr) ∧
       ((hGet wExposed 0).read_called = true →
         (hGet w' wExposed.handles.length).ptr = some wExposed.heap.length ∧
         (hGet w' wExposed.handles.length).ptr ≠ (hGet wExposed 0).ptr)) ∧
     (copyCon wExposed 0).isSome = true ∧
     ((hGet (copyAssign wExposed 0 0) 0).read_called = false ∧
      obs (copyAssign wExposed 0 0) 0 = obs wExposed 0 ∧
      ((hGet wExposed 0).read_called = false →
        (hGet (copyAssign wExposed 0 0) 0).ptr = (hGet wExposed 0).ptr) ∧
      ((hGet wExposed 0).read_called = true →
        (hGet (copyAssign wExposed 0 0) 0).ptr = some wExposed.heap.length ∧
        (hGet (copyAssign wExposed 0 0) 0).ptr ≠ (hGet wExposed 0).ptr))) :=
  ⟨by decide, by decide, by decide,
    copy_shares_or_clones wExposed 0 0 (by decide) (by decide)
      (by decide) (by decide)⟩

/-- C6: after every public operation a handle holds a storage instance iff
it contains at least one entry — the representation invariant is preserved
by every operation, and under it a null pointer is equivalent to size 0
(with `cbegin() = cend()` in that state); removing the last entry by either
removal operation succeeds, releases the instance, and returns the handle to
the empty state: null pointer, size 0 and `cbegin() = cend()`.  The empty
state is thus reachable both by starting empty and by removing the last
entry. -/
theorem empty_state_convergence (w : World K V) (a b : Nat) (pk k : K)
    (v : V) (r : Ref K) (hInv : InvB w = true) :
    ((hGet w a).ptr = none ↔ hSize w a = 0) ∧
    ((hGet w a).ptr = none → cbegin w a = cend w a) ∧
    InvB (hInsertFront w a k v).1 = true ∧
    InvB (hInsertAfter w a pk k v).1 = true ∧
    InvB (hRemoveFront w a).1 = true ∧
    InvB (hRemoveKey w a k).1 = true ∧
    InvB (hRead w a k).1 = true ∧
    InvB (writeRef w r v) = true ∧
    InvB (hClear w a) = true ∧
    (∀ w', copyCon w b = some w' → InvB w' = true) ∧
    InvB (copyAssign w a b) = true ∧
    InvB (moveCon w b) = true ∧
    InvB (moveAssign w a b) = true ∧
    (hSize w a = 1 →
      ((hRemoveFront w a).2 = none ∧
       (hGet (hRemoveFront w a).1 a).ptr = none ∧
       hSize (hRemoveFront w a).1 a = 0 ∧
       cbegin (hRemoveFront w a).1 a = cend (hRemoveFront w a).1 a) ∧
      (containsKey k (obs w a) = true →
       ((hRemoveKey w a k).2 = none ∧
        (hGet (hRemoveKey w a k).1 a).ptr = none ∧
        hSize (hRemoveKey w a k).1 a = 0 ∧
        cbegin (hRemoveKey w a k).1 a = cend (hRemoveKey w a k).1 a))) := by
  refine ⟨⟨?_, ?_⟩, ?_, invB_hInsertFront w a k v hInv,
    invB_hInsertAfter w a pk k v hInv, invB_hRemoveFront w a hInv,
    invB_hRemoveKey w a k hInv, invB_hRead w a k hInv,
    invB_writeRef r v hInv, invB_hClear w a hInv,
    fun w' hw' => invB_copyCon hInv hw', invB_copyAssign w a b hInv,
    invB_moveCon w b hInv, invB_moveAssign w a b hInv, ?_⟩
  · intro hp
    simp [hSize, obs, hp]
  · intro hsz
    rw [hSize] at hsz
    match hp : (hGet w a).ptr with
    | none => rfl
    | some i =>
      have h1 := invB_spec hInv a hp
      have hobs : obs w a = heapAt w i := by
        rw [obs, hp]
      rw [hobs] at hsz
      exact (h1.2 (List.length_eq_zero.mp hsz)).elim
  · intro hp
    simp only [cbegin, cend, hp]
  · intro hsz
    rw [hSize] at hsz
    obtain ⟨e0, he0⟩ := List.length_eq_one.mp hsz
    match hp : (hGet w a).ptr with
    | none =>
      have hnil : obs w a = [] := by
        rw [obs, hp]
      rw [hnil] at he0
      exact List.noConfusion he0
    | some i =>
      have ha2 := lt_handles_of_ptr hp
      refine ⟨?_, ?_⟩
      · rcases hd : dRemoveFront (obs w a) with e | c
        · rw [he0] at hd
          simp only [dRemoveFront] at hd
          exact Except.noConfusion hd
        · have hc : c = [] := by
            rw [he0] at hd
            simp only [dRemoveFront] at hd
            simpa using hd.symm
          subst hc
          have hres1 : (hRemoveFront w a).1 =
              ⟨(resolveTarget w (hGet w a).ptr).2.set
                  (resolveTarget w (hGet w a).ptr).1 [],
                w.handles.set a
                  ⟨if ([] : List (K × V)).isEmpty then none
                   else some (resolveTarget w (hGet w a).ptr).1, false⟩⟩ := by
            rw [hRemoveFront_eq w a hp, hd]
          have hres2 : (hRemoveFront w a).2 = none := by
            rw [hRemoveFront_eq w a hp, hd]
          have hgp : (hGet (hRemoveFront w a).1 a).ptr = none := by
            rw [hres1, hGet_commit w a ha2]
            rfl
          refine ⟨hres2, hgp, ?_, ?_⟩
          · rw [hSize, hres1, obs_commit_remove w a hInv ha2 []]
            rfl
          · simp only [cbegin, cend, hgp]
      · intro hck
        have he0k : e0.1 = k := by
          rw [he0] at hck
          simpa [containsKey_cons, containsKey_nil] using hck
        rcases hd : dRemoveKey k (obs w a) with e | c
        · simp only [dRemoveKey, hck, if_true] at hd
          exact Except.noConfusion hd
        · have hc : c = [] := by
            obtain ⟨_, hc'⟩ := dRemoveKey_ok hd
            rw [hc', he0]
            simp [removeKeyList, he0k]
          subst hc
          have hres1 : (hRemoveKey w a k).1 =
              ⟨(resolveTarget w (hGet w a).ptr).2.set
                  (resolveTarget w (hGet w a).ptr).1 [],
                w.handles.set a
                  ⟨if ([] : List (K × V)).isEmpty then none
                   else some (resolveTarget w (hGet w a).ptr).1, false⟩⟩ := by
            rw [hRemoveKey_eq w a k hp, hd]
          have hres2 : (hRemoveKey w a k).2 = none := by
            rw [hRemoveKey_eq w a k hp, hd]
          have hgp : (hGet (hRemoveKey w a k).1 a).ptr = none := by
            rw [hres1, hGet_commit w a ha2]
            rfl
          refine ⟨hres2, hgp, ?_, ?_⟩
          · rw [hSize, hres1, obs_commit_remove w a hInv ha2 []]
            rfl
          · simp only [cbegin, cend, hgp]

/-- Closed instantiation of `empty_state_convergence`: removing the only
entry of the singleton world, by either removal operation, releases the
instance and leaves an empty handle with equal begin/end iterators. -/
theorem empty_state_convergence_witness :
    ((hRemoveFront wExposed 0).2 = none ∧
     (hGet (hRemoveFront wExposed 0).1 0).ptr = none ∧
     hSize (hRemoveFront wExposed 0).1 0 = 0 ∧
     cbegin (hRemoveFront wExposed 0).1 0 = cend (hRemoveFront wExposed 0).1 0) ∧
    ((hRemoveKey wExposed 0 7).2 = none ∧
     (hGet (hRemoveKey wExposed 0 7).1 0).ptr = none ∧
     hSize (hRemoveKey wExposed 0 7).1 0 = 0 ∧
     cbegin (hRemoveKey wExposed 0 7).1 0 = cend (hRemoveKey wExposed 0 7).1 0) :=
  have h := (empty_state_convergence wExposed 0 0 7 7 0 ⟨0, 7⟩
    (by decide)).2.2.2.2.2.2.2.2.2.2.2.2.2 (by decide)
  ⟨h.1, h.2 (by decide)⟩

/-- C8: moving from a handle leaves it with a null `data_ptr` and size 0,
but does NOT reset its `read_called` flag: both the move constructor
(src/binder.h:54-56) and move assignment (src/binder.h:67-71) move-copy the
`bool` and only null the pointer.  A moved-from handle with the flag still
set makes a later copy-construction dereference a null `data_ptr`
(`*rhs.data_ptr` at src/binder.h:50), modelled as the undefined `none`. -/
theorem move_leaves_flag_set :
    (hGet (moveCon wExposed 0) 0).ptr = none ∧
    hSize (moveCon wExposed 0) 0 = 0 ∧
    (hGet (moveCon wExposed 0) 0).read_called = true ∧
    (hGet (moveAssign (⟨[[(7, 70)]], [⟨some 0, true⟩, ⟨none, false⟩]⟩ :
        World Nat Nat) 1 0) 0).ptr = none ∧
    (hGet (moveAssign (⟨[[(7, 70)]], [⟨some 0, true⟩, ⟨none, false⟩]⟩ :
        World Nat Nat) 1 0) 0).read_called = true ∧
    copyCon (moveCon wExposed 0) 0 = none := by decide

end CxxBinder
